import Mathlib

/-!
# PhishGuard front end (`script.js`): history store, analysis workflow, validation, export

A shallow embedding of the stateful core of `script.js` and the theorems that
settle the claims made about it.

The page's two variables (`currentAnalysis`, `analysisHistory`), the
`localStorage` slot, the requests in flight and the part of the document the
handlers read back are the fields of `AppState`; every handler is a function on
that state.  A handler that can throw returns an `Outcome`: the state at the
moment it returned or threw, and the error thrown if any.  `performAnalysis` is
split at its `await`: `performAnalysisStart` runs up to the `fetch`,
`performAnalysisResume` from the moment the `fetch` settles.

Values are JavaScript values as `JSON.parse` produces them (`JSValue`).  The host
functions the script calls (`JSON.stringify`, `JSON.parse`, `String.prototype.trim`,
`new URL`, `encodeURIComponent`) are written out after ECMA-262, ECMA-404 and the
WHATWG URL standard, with these limits:

* strings are sequences of Unicode scalar values (`Char`), not of UTF-16 code
  units, so a lone surrogate cannot occur;
* a number is the exact decimal `m / 10 ^ e` that its literal denotes: the
  rounding, overflow, negative zero and shortest-digits printing of IEEE doubles
  are not modelled; an integer prints as its decimal digits;
* `localStorage.setItem` always succeeds;
* the texts written into the results panel and the history rows are not part of
  the state, only whether writing them throws;
* what the host decides from Unicode tables or by coercing a string to a number,
  and what the two form controls read back after the script assigns to their
  `value` (which depends on the page's markup), is left open as the fields of
  `Host`; the general theorems hold for every `Host`.
-/

namespace PhishGuard

/-! ## JavaScript values -/

/-- A JavaScript value that `JSON.parse` can produce.  `num m e` is the number
`m / 10 ^ e`; an integer `n` is `num n 0`.  The fields of an object are kept in
the engine's property order. -/
inductive JSValue where
  | null
  | bool (b : Bool)
  | num (m : Int) (e : Nat)
  | str (s : String)
  | arr (items : List JSValue)
  | obj (fields : List (String × JSValue))
deriving Repr, Inhabited

mutual
/-- Structural equality test on values. -/
def JSValue.beq : JSValue → JSValue → Bool
  | .null, .null => true
  | .bool a, .bool b => a == b
  | .num m e, .num n f => m == n && e == f
  | .str s, .str t => s == t
  | .arr xs, .arr ys => JSValue.beqList xs ys
  | .obj fs, .obj gs => JSValue.beqFields fs gs
  | _, _ => false
/-- Structural equality test on arrays of values. -/
def JSValue.beqList : List JSValue → List JSValue → Bool
  | [], [] => true
  | x :: xs, y :: ys => JSValue.beq x y && JSValue.beqList xs ys
  | _, _ => false
/-- Structural equality test on field lists. -/
def JSValue.beqFields : List (String × JSValue) → List (String × JSValue) → Bool
  | [], [] => true
  | (k, x) :: xs, (l, y) :: ys => k == l && JSValue.beq x y && JSValue.beqFields xs ys
  | _, _ => false
end

mutual
theorem JSValue.beq_iff : ∀ a b : JSValue, JSValue.beq a b = true ↔ a = b
  | .null, b => by cases b <;> simp [JSValue.beq]
  | .bool x, b => by cases b <;> simp [JSValue.beq]
  | .num m e, b => by cases b <;> simp [JSValue.beq]
  | .str s, b => by cases b <;> simp [JSValue.beq]
  | .arr xs, b => by
      cases b <;> simp [JSValue.beq]
      exact JSValue.beqList_iff xs _
  | .obj fs, b => by
      cases b <;> simp [JSValue.beq]
      exact JSValue.beqFields_iff fs _
theorem JSValue.beqList_iff :
    ∀ xs ys : List JSValue, JSValue.beqList xs ys = true ↔ xs = ys
  | [], ys => by cases ys <;> simp [JSValue.beqList]
  | x :: xs, ys => by
      cases ys with
      | nil => simp [JSValue.beqList]
      | cons y ys =>
        simp [JSValue.beqList, JSValue.beq_iff x y, JSValue.beqList_iff xs ys]
theorem JSValue.beqFields_iff :
    ∀ xs ys : List (String × JSValue), JSValue.beqFields xs ys = true ↔ xs = ys
  | [], ys => by cases ys <;> simp [JSValue.beqFields]
  | (k, x) :: xs, ys => by
      cases ys with
      | nil => simp [JSValue.beqFields]
      | cons y ys =>
        obtain ⟨l, y⟩ := y
        simp [JSValue.beqFields, JSValue.beq_iff x y, JSValue.beqFields_iff xs ys,
          and_assoc]
end

instance : DecidableEq JSValue := fun a b =>
  decidable_of_iff (JSValue.beq a b = true) (JSValue.beq_iff a b)

/-- An integer as a JavaScript number. -/
abbrev JSValue.int (n : Int) : JSValue := .num n 0

/-! ## Property access -/

/-- Is `c` an ASCII digit. -/
def isDigit (c : Char) : Bool := 48 ≤ c.toNat && c.toNat ≤ 57

/-- The value of a string of ASCII digits read in base ten. -/
def digitsToNat (ds : List Char) : Nat :=
  ds.foldl (fun a c => 10 * a + (c.toNat - 48)) 0

/-- ECMA-262 "array index": the key is the canonical decimal form of an integer
below `2 ^ 32 - 1`.  Such keys come first, in ascending order, in an object's
property order. -/
def arrayIndex? (k : String) : Option Nat :=
  match k.data with
  | [] => none
  | c :: cs =>
    if (c :: cs).all isDigit && (c != '0' || cs.isEmpty) then
      let n := digitsToNat (c :: cs)
      if n < 4294967295 then some n else none
    else none

/-- The own property `k` of a field list (`undefined` is `none`). -/
def lookupField (k : String) : List (String × JSValue) → Option JSValue
  | [] => none
  | (k', v) :: rest => if k' = k then some v else lookupField k rest

/-- Overwrite the value of the existing key `k`, keeping its position. -/
def replaceField (k : String) (v : JSValue) :
    List (String × JSValue) → List (String × JSValue)
  | [] => []
  | (k', v') :: rest =>
    if k' = k then (k, v) :: rest else (k', v') :: replaceField k v rest

/-- Insert the new array-index key `k` (of value `i`) at its place among the
index keys, before every other key. -/
def insertIndexed (i : Nat) (k : String) (v : JSValue) :
    List (String × JSValue) → List (String × JSValue)
  | [] => [(k, v)]
  | (k', v') :: rest =>
    match arrayIndex? k' with
    | some j =>
      if j < i then (k', v') :: insertIndexed i k v rest else (k, v) :: (k', v') :: rest
    | none => (k, v) :: (k', v') :: rest

/-- `CreateDataProperty`: define or overwrite the own property `k`.  An existing
key keeps its position; a new index key is placed in numeric order among the
index keys; any other new key goes last. -/
def setField (fs : List (String × JSValue)) (k : String) (v : JSValue) :
    List (String × JSValue) :=
  match lookupField k fs with
  | some _ => replaceField k v fs
  | none =>
    match arrayIndex? k with
    | some i => insertIndexed i k v fs
    | none => fs ++ [(k, v)]

/-! ## `JSON.stringify` -/

/-- The hexadecimal digit (lower case) of a number below sixteen. -/
def hexDigit (n : Nat) : Char :=
  if n < 10 then Char.ofNat (48 + n) else Char.ofNat (87 + n)

/-- The decimal digit of a number below ten. -/
def digitChar (n : Nat) : Char := Char.ofNat (48 + n)

/-- Decimal digits of `n`, most significant first, pushed in front of `acc`. -/
def natDigitsAux : Nat → Nat → List Char → List Char
  | 0, _, acc => acc
  | fuel + 1, n, acc =>
    if n / 10 = 0 then digitChar (n % 10) :: acc
    else natDigitsAux fuel (n / 10) (digitChar (n % 10) :: acc)

/-- The decimal digits of a natural number (`"0"` for zero). -/
def natDigits (n : Nat) : List Char := natDigitsAux (n + 1) n []

/-- `Number::toString` on the numbers of the model: an integer prints as its
decimal digits, `m / 10 ^ e` with `e > 0` as its finite decimal expansion. -/
def numberToString (m : Int) (e : Nat) : List Char :=
  let sign : List Char := if m < 0 then ['-'] else []
  match e with
  | 0 => sign ++ natDigits m.natAbs
  | e + 1 =>
    let frac := natDigits (m.natAbs % 10 ^ (e + 1))
    sign ++ natDigits (m.natAbs / 10 ^ (e + 1)) ++ '.' ::
      (List.replicate (e + 1 - frac.length) '0' ++ frac)

/-- `QuoteJSONString`, one character: the escapes of ECMA-262 25.5.2.3. -/
def quoteChar (c : Char) : List Char :=
  if c = '"' then ['\\', '"']
  else if c = '\\' then ['\\', '\\']
  else if c.toNat = 8 then ['\\', 'b']
  else if c.toNat = 9 then ['\\', 't']
  else if c.toNat = 10 then ['\\', 'n']
  else if c.toNat = 12 then ['\\', 'f']
  else if c.toNat = 13 then ['\\', 'r']
  else if c.toNat < 32 then
    ['\\', 'u', '0', '0', hexDigit (c.toNat / 16), hexDigit (c.toNat % 16)]
  else [c]

/-- The characters of a quoted string, without the surrounding quotes. -/
def quoteBody : List Char → List Char
  | [] => []
  | c :: cs => quoteChar c ++ quoteBody cs

/-- `QuoteJSONString`. -/
def quoteString (s : String) : List Char := '"' :: (quoteBody s.data ++ ['"'])

mutual
/-- `JSON.stringify(v)` with no indentation, as a character list. -/
def stringifyValue : JSValue → List Char
  | .null => ['n', 'u', 'l', 'l']
  | .bool true => ['t', 'r', 'u', 'e']
  | .bool false => ['f', 'a', 'l', 's', 'e']
  | .num m e => numberToString m e
  | .str s => quoteString s
  | .arr xs => '[' :: (stringifyItems xs ++ [']'])
  | .obj fs => '{' :: (stringifyFields fs ++ ['}'])
/-- The elements of an array, separated by commas. -/
def stringifyItems : List JSValue → List Char
  | [] => []
  | [x] => stringifyValue x
  | x :: y :: rest => stringifyValue x ++ ',' :: stringifyItems (y :: rest)
/-- The members of an object, separated by commas. -/
def stringifyFields : List (String × JSValue) → List Char
  | [] => []
  | [(k, v)] => quoteString k ++ ':' :: stringifyValue v
  | (k, v) :: y :: rest =>
    quoteString k ++ ':' :: (stringifyValue v ++ ',' :: stringifyFields (y :: rest))
end

/-- `JSON.stringify(v)`. -/
def JSON.stringify (v : JSValue) : String := String.mk (stringifyValue v)

/-! ## `JSON.parse` -/

/-- JSON white space. -/
def isWs (c : Char) : Bool := c = ' ' || c = '\t' || c = '\n' || c = '\r'

/-- Drop leading JSON white space. -/
def skipWs : List Char → List Char
  | [] => []
  | c :: cs => if isWs c then skipWs cs else c :: cs

/-- The value of a hexadecimal digit, either case. -/
def hexVal? (c : Char) : Option Nat :=
  if 48 ≤ c.toNat ∧ c.toNat ≤ 57 then some (c.toNat - 48)
  else if 97 ≤ c.toNat ∧ c.toNat ≤ 102 then some (c.toNat - 87)
  else if 65 ≤ c.toNat ∧ c.toNat ≤ 70 then some (c.toNat - 55)
  else none

/-- The value of four hexadecimal digits. -/
def hex4? (a b c d : Char) : Option Nat :=
  match hexVal? a, hexVal? b, hexVal? c, hexVal? d with
  | some a, some b, some c, some d => some (((a * 16 + b) * 16 + c) * 16 + d)
  | _, _, _, _ => none

/-- The character of a one-letter escape `\e`. -/
def unescape? (e : Char) : Option Char :=
  if e = '"' then some '"'
  else if e = '\\' then some '\\'
  else if e = '/' then some '/'
  else if e = 'b' then some (Char.ofNat 8)
  else if e = 'f' then some (Char.ofNat 12)
  else if e = 'n' then some '\n'
  else if e = 'r' then some '\r'
  else if e = 't' then some '\t'
  else none

/-- Put a decoded unit in front of the rest of a parsed string. -/
def pushUnit (n : Nat) (r : List Nat × List Char) : List Nat × List Char :=
  (n :: r.1, r.2)

/-- A JSON string after its opening quote: its units (the code of a character
written as itself, the sixteen-bit value of a `\\u` escape) and the input after
the closing quote. -/
def parseStringBody : List Char → Option (List Nat × List Char)
  | [] => none
  | c :: rest =>
    if c = '"' then some ([], rest)
    else if c = '\\' then
      match rest with
      | [] => none
      | e :: rest1 =>
        if e = 'u' then
          match rest1 with
          | h1 :: h2 :: h3 :: h4 :: rest2 =>
            match hex4? h1 h2 h3 h4 with
            | none => none
            | some n => (parseStringBody rest2).map (pushUnit n)
          | _ => none
        else
          match unescape? e with
          | some ch => (parseStringBody rest1).map (pushUnit ch.toNat)
          | none => none
    else if c.toNat < 32 then none
    else (parseStringBody rest).map (pushUnit c.toNat)

/-- The characters of a list of units: a high surrogate followed by a low one is
the character of the pair; a lone surrogate, which `Char` cannot hold, is read
as U+FFFD. -/
def decodeUnits : List Nat → List Char
  | [] => []
  | [n] => [if 55296 ≤ n ∧ n ≤ 57343 then Char.ofNat 65533 else Char.ofNat n]
  | n :: lo :: rest =>
    if 55296 ≤ n ∧ n ≤ 56319 ∧ 56320 ≤ lo ∧ lo ≤ 57343 then
      Char.ofNat (65536 + (n - 55296) * 1024 + (lo - 56320)) :: decodeUnits rest
    else if 55296 ≤ n ∧ n ≤ 57343 then Char.ofNat 65533 :: decodeUnits (lo :: rest)
    else Char.ofNat n :: decodeUnits (lo :: rest)

/-- A JSON string after its opening quote, decoded. -/
def parseString (cs : List Char) : Option (String × List Char) :=
  match parseStringBody cs with
  | some (units, rest) => some (String.mk (decodeUnits units), rest)
  | none => none

/-- The longest prefix of digits, and what follows it. -/
def spanDigits : List Char → List Char × List Char
  | [] => ([], [])
  | c :: cs =>
    if isDigit c then (c :: (spanDigits cs).1, (spanDigits cs).2) else ([], c :: cs)

/-- The integer part of a number: `0`, or a non-zero digit and more digits. -/
def parseIntPart : List Char → Option (List Char × List Char)
  | [] => none
  | c :: rest =>
    if c = '0' then some (['0'], rest)
    else if isDigit c then some (c :: (spanDigits rest).1, (spanDigits rest).2)
    else none

/-- An optional fraction: a point and at least one digit. -/
def parseFrac : List Char → List Char × List Char
  | [] => ([], [])
  | [c] => ([], [c])
  | p :: d :: rest =>
    if p = '.' ∧ isDigit d = true then (d :: (spanDigits rest).1, (spanDigits rest).2)
    else ([], p :: d :: rest)

/-- An optional exponent: `e` or `E`, an optional sign, at least one digit. -/
def parseExp : List Char → Int × List Char
  | [] => (0, [])
  | [c] => (0, [c])
  | e :: s :: rest =>
    if e = 'e' ∨ e = 'E' then
      if isDigit s then
        (Int.ofNat (digitsToNat (s :: (spanDigits rest).1)), (spanDigits rest).2)
      else if s = '+' ∨ s = '-' then
        match spanDigits rest with
        | ([], _) => (0, e :: s :: rest)
        | (d :: ds, rest1) =>
          (if s = '-' then - Int.ofNat (digitsToNat (d :: ds))
           else Int.ofNat (digitsToNat (d :: ds)), rest1)
      else (0, e :: s :: rest)
    else (0, e :: s :: rest)

/-- The number `m / 10 ^ e` in lowest terms of ten. -/
def stripZeros (m : Int) : Nat → JSValue
  | 0 => .num m 0
  | e + 1 => if m % 10 = 0 then stripZeros (m / 10) e else .num m (e + 1)

/-- The value of a number literal with the digits `mant`, `fracLen` of them after
the point, and the exponent `exp`. -/
def mkNumber (neg : Bool) (mant : Nat) (fracLen : Nat) (exp : Int) : JSValue :=
  let m : Int := if neg then - Int.ofNat mant else Int.ofNat mant
  if Int.ofNat fracLen ≤ exp then .num (m * 10 ^ (exp - Int.ofNat fracLen).toNat) 0
  else stripZeros m (Int.ofNat fracLen - exp).toNat

/-- A JSON number at the head of the input. -/
def parseNumber (cs : List Char) : Option (JSValue × List Char) :=
  let neg : Bool := cs.head? = some '-'
  match parseIntPart (if neg then cs.tail else cs) with
  | none => none
  | some (ds, r1) =>
    let fr := parseFrac r1
    let ex := parseExp fr.2
    some (mkNumber neg (digitsToNat (ds ++ fr.1)) fr.1.length ex.1, ex.2)

/-- A literal name or a number whose first character is `c`. -/
def parseLiteral (c : Char) (rest : List Char) : Option (JSValue × List Char) :=
  if c = 'n' then
    match rest with
    | 'u' :: 'l' :: 'l' :: r => some (.null, r)
    | _ => none
  else if c = 't' then
    match rest with
    | 'r' :: 'u' :: 'e' :: r => some (.bool true, r)
    | _ => none
  else if c = 'f' then
    match rest with
    | 'a' :: 'l' :: 's' :: 'e' :: r => some (.bool false, r)
    | _ => none
  else parseNumber (c :: rest)

mutual
/-- A JSON value at the head of the input, after optional white space, with the
input that follows it.  `fuel` bounds the recursion; a parse never needs more of
it than the characters it reads (`parse_fuel_enough`). -/
def parseValue : Nat → List Char → Option (JSValue × List Char)
  | 0, _ => none
  | fuel + 1, cs =>
    match skipWs cs with
    | [] => none
    | c :: rest =>
      if c = '"' then
        match parseString rest with
        | some (s, r) => some (.str s, r)
        | none => none
      else if c = '[' then
        match skipWs rest with
        | [] => none
        | d :: rest1 =>
          if d = ']' then some (.arr [], rest1)
          else
            match parseItems fuel rest with
            | some (xs, r) => some (.arr xs, r)
            | none => none
      else if c = '{' then
        match skipWs rest with
        | [] => none
        | d :: rest1 =>
          if d = '}' then some (.obj [], rest1)
          else
            match parseMembers fuel rest [] with
            | some (fs, r) => some (.obj fs, r)
            | none => none
      else parseLiteral c rest
/-- The elements of a non-empty array up to and including the closing bracket. -/
def parseItems : Nat → List Char → Option (List JSValue × List Char)
  | 0, _ => none
  | fuel + 1, cs =>
    match parseValue fuel cs with
    | none => none
    | some (v, rest) =>
      match skipWs rest with
      | [] => none
      | d :: rest1 =>
        if d = ',' then
          match parseItems fuel rest1 with
          | some (xs, r) => some (v :: xs, r)
          | none => none
        else if d = ']' then some ([v], rest1)
        else none
/-- The members of a non-empty object up to and including the closing brace,
defined one after the other on the fields `acc` read so far, so that a repeated
key keeps its first position and its last value. -/
def parseMembers :
    Nat → List Char → List (String × JSValue) → Option (List (String × JSValue) × List Char)
  | 0, _, _ => none
  | fuel + 1, cs, acc =>
    match skipWs cs with
    | [] => none
    | q :: rest =>
      if q = '"' then
        match parseString rest with
        | none => none
        | some (k, rest1) =>
          match skipWs rest1 with
          | [] => none
          | c :: rest2 =>
            if c = ':' then
              match parseValue fuel rest2 with
              | none => none
              | some (v, rest3) =>
                match skipWs rest3 with
                | [] => none
                | d :: rest4 =>
                  if d = ',' then parseMembers fuel rest4 (setField acc k v)
                  else if d = '}' then some (setField acc k v, rest4)
                  else none
            else none
      else none
end

/-- The errors a handler can throw, by kind. -/
inductive JSError where
  | syntaxError
  | typeError
  | error (message : String)
deriving Repr, DecidableEq

deriving instance DecidableEq for Except

/-- `JSON.parse(text)`: one value between optional white space, or a
`SyntaxError`.  The fuel `2 * length + 2` is more than any text needs
(`JSON.parse_complete`). -/
def JSON.parse (text : String) : Except JSError JSValue :=
  match parseValue (2 * text.data.length + 2) text.data with
  | some (v, rest) => if skipWs rest = [] then .ok v else .error .syntaxError
  | none => .error .syntaxError

/-! ## The conversions the script relies on -/

/-- `ToBoolean`. -/
def JSValue.truthy : JSValue → Bool
  | .null => false
  | .bool b => b
  | .num m _ => m != 0
  | .str s => s != ""
  | .arr _ => true
  | .obj _ => true

/-- `ToBoolean` of a possibly `undefined` value. -/
def truthy? : Option JSValue → Bool
  | none => false
  | some v => v.truthy

/-- The `length` of a string: its number of UTF-16 code units. -/
def utf16Length (s : String) : Nat :=
  (s.data.map fun c => if c.toNat < 65536 then 1 else 2).sum

mutual
/-- Does `ToString(v)` (equally `ToPrimitive(v)`) throw a `TypeError`.  A parsed
object inherits a callable `toString` unless it has an own key of that name,
whose value is never callable; an array joins the strings of its elements. -/
def toStringThrows : JSValue → Bool
  | .arr xs => toStringThrowsList xs
  | .obj fs => (lookupField "toString" fs).isSome
  | _ => false
/-- Does `ToString` throw on some element of the list. -/
def toStringThrowsList : List JSValue → Bool
  | [] => false
  | x :: xs => toStringThrows x || toStringThrowsList xs
end

mutual
/-- `ToString(v)` where it does not throw. -/
def toStringJS : JSValue → List Char
  | .null => ['n', 'u', 'l', 'l']
  | .bool true => ['t', 'r', 'u', 'e']
  | .bool false => ['f', 'a', 'l', 's', 'e']
  | .num m e => numberToString m e
  | .str s => s.data
  | .arr xs => joinJS xs
  | .obj _ => "[object Object]".data
/-- `Array.prototype.join` with the comma: `null` elements give the empty string. -/
def joinJS : List JSValue → List Char
  | [] => []
  | [x] => elementJS x
  | x :: y :: rest => elementJS x ++ ',' :: joinJS (y :: rest)
/-- The string of one element inside `join`. -/
def elementJS : JSValue → List Char
  | .null => []
  | .bool true => ['t', 'r', 'u', 'e']
  | .bool false => ['f', 'a', 'l', 's', 'e']
  | .num m e => numberToString m e
  | .str s => s.data
  | .arr xs => joinJS xs
  | .obj _ => "[object Object]".data
end

/-- The property `k` of `v`, for a name `k` that is neither `length`, an array
index nor a method of a prototype (every name the script reads but `length`):
only a parsed object has such a property, and reading it off `null` throws. -/
def getNamed (v : JSValue) (k : String) : Except JSError (Option JSValue) :=
  match v with
  | .null => .error .typeError
  | .obj fs => .ok (lookupField k fs)
  | _ => .ok none

/-- The property `length` of `v`. -/
def getLength (v : JSValue) : Except JSError (Option JSValue) :=
  match v with
  | .null => .error .typeError
  | .arr xs => .ok (some (.int xs.length))
  | .str s => .ok (some (.int (utf16Length s)))
  | .obj fs => .ok (lookupField "length" fs)
  | _ => .ok none

/-- The fields `"i" : x` of the elements of an array, counted from `i`. -/
def indexFields : Nat → List JSValue → List (String × JSValue)
  | _, [] => []
  | i, x :: xs => (String.mk (natDigits i), x) :: indexFields (i + 1) xs

/-- The UTF-16 code units of a string as one-character strings; a surrogate
half, which `Char` cannot hold, is written U+FFFD. -/
def utf16Units : List Char → List JSValue
  | [] => []
  | c :: cs =>
    if c.toNat < 65536 then .str (String.mk [c]) :: utf16Units cs
    else .str (String.mk [Char.ofNat 65533]) :: .str (String.mk [Char.ofNat 65533]) ::
      utf16Units cs

/-- The own enumerable properties that the spread `{...v}` copies. -/
def spread : JSValue → List (String × JSValue)
  | .obj fs => fs
  | .arr xs => indexFields 0 xs
  | .str s => indexFields 0 (utf16Units s.data)
  | _ => []

/-- What the host supplies and this development leaves open. -/
structure Host where
  /-- `v > 0` for a string, array or object `v` (`ToPrimitive`, `StringToNumber`). -/
  greaterThanZero : JSValue → Except JSError Bool
  /-- Percent-decoding and Unicode ToASCII of a host name that is not plain
  ASCII, holds a `%`, or has an `xn--` label. -/
  domainToASCII : List Char → Option (List Char)
  /-- Does the WHATWG IPv6 parser accept the text between the brackets. -/
  ipv6 : List Char → Bool
  /-- What the type selector reads back after the script assigns a text to its
  `value`: the text when one of the selector's options has that value, and the
  empty string when none has. -/
  selectValue : String → String
  /-- What the input field reads back after the script assigns a text to its
  `value` (a `textarea` normalises the line breaks of the text). -/
  fieldValue : String → String

/-- The comparison `v > 0` for a possibly `undefined` value. -/
def greaterThanZero (host : Host) : Option JSValue → Except JSError Bool
  | none => .ok false
  | some .null => .ok false
  | some (.bool b) => .ok b
  | some (.num m _) => .ok (decide (0 < m))
  | some v => host.greaterThanZero v

/-- The strict comparison `v === 0` for a possibly `undefined` value. -/
def strictlyZero : Option JSValue → Bool
  | some (.num m _) => m == 0
  | _ => false

/-! ## `String.prototype.trim` -/

/-- ECMA-262 `WhiteSpace` and `LineTerminator`, the characters `trim` removes. -/
def isJSWhiteSpace (c : Char) : Bool :=
  c.toNat = 9 || c.toNat = 10 || c.toNat = 11 || c.toNat = 12 || c.toNat = 13 ||
  c.toNat = 32 || c.toNat = 160 || c.toNat = 5760 ||
  (8192 ≤ c.toNat && c.toNat ≤ 8202) || c.toNat = 8232 || c.toNat = 8233 ||
  c.toNat = 8239 || c.toNat = 8287 || c.toNat = 12288 || c.toNat = 65279

/-- Drop the characters satisfying `p` from both ends. -/
def stripBoth (p : Char → Bool) (cs : List Char) : List Char :=
  ((cs.dropWhile p).reverse.dropWhile p).reverse

/-- `String.prototype.trim`. -/
def trim (s : String) : String := String.mk (stripBoth isJSWhiteSpace s.data)

/-! ## `new URL(string)` with no base: the WHATWG basic URL parser -/

/-- ASCII alpha. -/
def isAsciiAlpha (c : Char) : Bool :=
  (65 ≤ c.toNat && c.toNat ≤ 90) || (97 ≤ c.toNat && c.toNat ≤ 122)

/-- ASCII lowercase of one character. -/
def asciiLower (c : Char) : Char :=
  if 65 ≤ c.toNat ∧ c.toNat ≤ 90 then Char.ofNat (c.toNat + 32) else c

/-- May `c` continue a scheme: ASCII alphanumeric, `+`, `-` or `.`. -/
def isSchemeChar (c : Char) : Bool :=
  isAsciiAlpha c || isDigit c || c = '+' || c = '-' || c = '.'

/-- Scheme state: the rest of the scheme up to the colon, and what follows it.
Reaching another character or the end of input leaves no scheme. -/
def schemeState (acc : List Char) : List Char → Option (List Char × List Char)
  | [] => none
  | c :: cs =>
    if isSchemeChar c then schemeState (acc ++ [asciiLower c]) cs
    else if c = ':' then some (acc, cs)
    else none

/-- Scheme start state: a scheme begins with an ASCII alpha. -/
def schemeStartState : List Char → Option (List Char × List Char)
  | [] => none
  | c :: cs => if isAsciiAlpha c then schemeState [asciiLower c] cs else none

/-- The special schemes. -/
def isSpecialScheme (scheme : List Char) : Bool :=
  scheme = "ftp".data || scheme = "file".data || scheme = "http".data ||
  scheme = "https".data || scheme = "ws".data || scheme = "wss".data

/-- Forbidden host code points. -/
def isForbiddenHostCodePoint (c : Char) : Bool :=
  c.toNat = 0 || c.toNat = 9 || c.toNat = 10 || c.toNat = 13 || c.toNat = 32 ||
  c = '#' || c = '/' || c = ':' || c = '<' || c = '>' || c = '?' || c = '@' ||
  c = '[' || c = '\\' || c = ']' || c = '^' || c = '|'

/-- Forbidden domain code points. -/
def isForbiddenDomainCodePoint (c : Char) : Bool :=
  isForbiddenHostCodePoint c || c.toNat ≤ 31 || c = '%' || c.toNat = 127

/-- Strictly split on a separator. -/
def splitOn (sep : Char) : List Char → List (List Char)
  | [] => [[]]
  | c :: cs =>
    if c = sep then [] :: splitOn sep cs
    else
      match splitOn sep cs with
      | [] => [[c]]
      | part :: parts => (c :: part) :: parts

/-- The value of a digit string in the given radix, if every character is a
digit of that radix. -/
def parseRadix (radix : Nat) (cs : List Char) : Option Nat :=
  cs.foldl
    (fun acc c =>
      match acc, hexVal? c with
      | some a, some v => if v < radix then some (a * radix + v) else none
      | _, _ => none)
    (some 0)

/-- The IPv4 number parser: decimal, octal after `0`, hexadecimal after `0x`. -/
def ipv4Number : List Char → Option Nat
  | [] => none
  | [c] => parseRadix 10 [c]
  | c :: x :: rest =>
    if c = '0' then
      if x = 'x' ∨ x = 'X' then parseRadix 16 rest else parseRadix 8 (x :: rest)
    else parseRadix 10 (c :: x :: rest)

/-- The parts of a host split on dots, without one empty last part. -/
def dottedParts (cs : List Char) : List (List Char) :=
  let parts := splitOn '.' cs
  if parts.getLast? = some [] ∧ 1 < parts.length then parts.dropLast else parts

/-- The ends-in-a-number checker. -/
def endsInNumber (cs : List Char) : Bool :=
  match (dottedParts cs).getLast? with
  | none => false
  | some last =>
    if last = [] then false
    else last.all isDigit || (ipv4Number last).isSome

/-- Every part as an IPv4 number, if all of them are. -/
def ipv4Numbers : List (List Char) → Option (List Nat)
  | [] => some []
  | part :: parts =>
    match ipv4Number part, ipv4Numbers parts with
    | some n, some ns => some (n :: ns)
    | _, _ => none

/-- Does the IPv4 parser accept the host. -/
def ipv4Parses (cs : List Char) : Bool :=
  let parts := dottedParts cs
  if 4 < parts.length then false
  else
    match ipv4Numbers parts with
    | none => false
    | some numbers =>
      numbers.dropLast.all (fun n => n ≤ 255) &&
        (match numbers.getLast? with
         | some last => decide (last < 256 ^ (5 - numbers.length))
         | none => true)

/-- Does a label start with `xn--` in either case. -/
def isPunycodeLabel (label : List Char) : Bool :=
  (label.take 4).map asciiLower = ['x', 'n', '-', '-']

/-- A host name on which domain-to-ASCII is ASCII lowercasing: ASCII only, no
percent escape, no `xn--` label. -/
def isPlainAscii (cs : List Char) : Bool :=
  cs.all (fun c => c.toNat < 128 && c != '%') &&
    !((splitOn '.' cs).any isPunycodeLabel)

/-- Does the host parser accept `input`. -/
def hostParses (host : Host) (input : List Char) (isOpaque : Bool) : Bool :=
  match input with
  | '[' :: rest =>
    if rest.getLast? = some ']' then host.ipv6 rest.dropLast else false
  | _ =>
    if isOpaque then !(input.any isForbiddenHostCodePoint)
    else
      match (if isPlainAscii input then some (input.map asciiLower)
             else host.domainToASCII input) with
      | none => false
      | some domain =>
        if domain = [] then false
        else if domain.any isForbiddenDomainCodePoint then false
        else if endsInNumber domain then ipv4Parses domain
        else true

/-- The characters that end the authority: `/`, `?`, `#`, and `\` in a special URL. -/
def isAuthorityEnd (special : Bool) (c : Char) : Bool :=
  c = '/' || c = '?' || c = '#' || (special && c = '\\')

/-- Port state, on the input after the colon: digits up to the end of the
authority, of value at most 65535. -/
def portState (special : Bool) (cs : List Char) : Bool :=
  (match (spanDigits cs).2 with
   | [] => true
   | c :: _ => isAuthorityEnd special c) &&
    ((spanDigits cs).1 = [] || decide (digitsToNat (spanDigits cs).1 ≤ 65535))

/-- Host state with the buffer `buf`: the host ends at a colon outside brackets
or at the end of the authority; a special URL needs a non-empty host. -/
def hostState (host : Host) (special : Bool) :
    Bool → List Char → List Char → Bool
  | _, buf, [] =>
    if special ∧ buf = [] then false else hostParses host buf (!special)
  | inside, buf, c :: cs =>
    if c = ':' ∧ inside = false then
      if buf = [] then false
      else hostParses host buf (!special) && portState special cs
    else if isAuthorityEnd special c then
      if special ∧ buf = [] then false else hostParses host buf (!special)
    else
      hostState host special
        (if c = '[' then true else if c = ']' then false else inside) (buf ++ [c]) cs

/-- Authority state: the host starts after the last `@` of the authority;
credentials followed by no host are a failure. -/
def authorityState (host : Host) (special : Bool) (cs : List Char) : Bool :=
  let authority := cs.takeWhile (fun c => !isAuthorityEnd special c)
  let rest := cs.dropWhile (fun c => !isAuthorityEnd special c)
  if authority.contains '@' then
    let hostPart := (authority.reverse.takeWhile (fun c => c != '@')).reverse
    if hostPart = [] then false else hostState host special false [] (hostPart ++ rest)
  else hostState host special false [] cs

/-- A Windows drive letter: an ASCII alpha and `:` or `|`. -/
def isWindowsDriveLetter : List Char → Bool
  | [a, b] => isAsciiAlpha a && (b = ':' || b = '|')
  | _ => false

/-- File host state, on the input after the two slashes. -/
def fileHostState (host : Host) (cs : List Char) : Bool :=
  let buf := cs.takeWhile (fun c => !(c = '/' || c = '\\' || c = '?' || c = '#'))
  if isWindowsDriveLetter buf then true
  else if buf = [] then true
  else hostParses host buf false

/-- File state and file slash state, on the input after `file:`. -/
def fileState (host : Host) : List Char → Bool
  | c1 :: c2 :: rest =>
    if (c1 = '/' ∨ c1 = '\\') ∧ (c2 = '/' ∨ c2 = '\\') then fileHostState host rest
    else true
  | _ => true

/-- Does `new URL(string)` return rather than throw: the basic URL parser with
no base.  Leading and trailing C0 controls and spaces are dropped, then every
tab and newline; without a scheme parsing fails; the path, query and fragment
states never fail. -/
def urlParses (host : Host) (string : String) : Bool :=
  let input :=
    (stripBoth (fun c => c.toNat ≤ 32) string.data).filter
      (fun c => !(c = '\t' || c = '\n' || c = '\r'))
  match schemeStartState input with
  | none => false
  | some (scheme, rest) =>
    if scheme = "file".data then fileState host rest
    else if isSpecialScheme scheme then
      authorityState host true (rest.dropWhile (fun c => c = '/' || c = '\\'))
    else
      match rest with
      | '/' :: '/' :: rest2 => authorityState host false rest2
      | _ => true

/-- `isValidUrl` (script.js 518-525): `new URL(string)` in a `try`, `true` when
it returns and `false` when it throws. -/
def isValidUrl (host : Host) (string : String) : Bool := urlParses host string

/-- A host whose open parts reject: no IDNA, no IPv6, no coercion to a
positive number.  Its type selector has the options `url` and `email`, and its
input field keeps the text it is given. -/
def Host.strict : Host where
  greaterThanZero := fun _ => .ok false
  domainToASCII := fun _ => none
  ipv6 := fun _ => false
  selectValue := fun s => if s = "url" ∨ s = "email" then s else ""
  fieldValue := fun s => s

/-! ## `JSON.stringify(value, null, 2)` and `encodeURIComponent` -/

/-- The indentation of nesting depth `depth` with the gap of two spaces. -/
def indentOf (depth : Nat) : List Char := List.replicate (2 * depth) ' '

mutual
/-- `JSON.stringify(v, null, 2)` for a value at nesting depth `depth`. -/
def prettyValue (depth : Nat) : JSValue → List Char
  | .null => ['n', 'u', 'l', 'l']
  | .bool true => ['t', 'r', 'u', 'e']
  | .bool false => ['f', 'a', 'l', 's', 'e']
  | .num m e => numberToString m e
  | .str s => quoteString s
  | .arr [] => ['[', ']']
  | .arr (x :: xs) =>
    '[' :: '\n' :: (indentOf (depth + 1) ++
      (prettyItems depth (x :: xs) ++ '\n' :: (indentOf depth ++ [']'])))
  | .obj [] => ['{', '}']
  | .obj (f :: fs) =>
    '{' :: '\n' :: (indentOf (depth + 1) ++
      (prettyFields depth (f :: fs) ++ '\n' :: (indentOf depth ++ ['}'])))
/-- The elements of an array at depth `depth`, one per line. -/
def prettyItems (depth : Nat) : List JSValue → List Char
  | [] => []
  | [x] => prettyValue (depth + 1) x
  | x :: y :: rest =>
    prettyValue (depth + 1) x ++
      ',' :: '\n' :: (indentOf (depth + 1) ++ prettyItems depth (y :: rest))
/-- The members of an object at depth `depth`, one per line. -/
def prettyFields (depth : Nat) : List (String × JSValue) → List Char
  | [] => []
  | [(k, v)] => quoteString k ++ ':' :: ' ' :: prettyValue (depth + 1) v
  | (k, v) :: y :: rest =>
    quoteString k ++ ':' :: ' ' :: (prettyValue (depth + 1) v ++
      ',' :: '\n' :: (indentOf (depth + 1) ++ prettyFields depth (y :: rest)))
end

/-- The property list of an object literal whose values may be `undefined`, as
`JSON.stringify` serialises it: a property whose value is `undefined` is left out. -/
def definedFields : List (String × Option JSValue) → List (String × JSValue)
  | [] => []
  | (k, some v) :: rest => (k, v) :: definedFields rest
  | (_, none) :: rest => definedFields rest

/-- The UTF-8 bytes of a character. -/
def utf8Bytes (c : Char) : List Nat :=
  let n := c.toNat
  if n < 128 then [n]
  else if n < 2048 then [192 + n / 64, 128 + n % 64]
  else if n < 65536 then [224 + n / 4096, 128 + n / 64 % 64, 128 + n % 64]
  else [240 + n / 262144, 128 + n / 4096 % 64, 128 + n / 64 % 64, 128 + n % 64]

/-- The upper-case hexadecimal digit of a number below sixteen. -/
def hexDigitUpper (n : Nat) : Char :=
  if n < 10 then Char.ofNat (48 + n) else Char.ofNat (55 + n)

/-- The characters `encodeURIComponent` leaves as they are. -/
def isUriUnreserved (c : Char) : Bool :=
  isAsciiAlpha c || isDigit c || c = '-' || c = '_' || c = '.' || c = '!' ||
  c = '~' || c = '*' || c = '\'' || c = '(' || c = ')'

/-- `encodeURIComponent`: every other character as the `%XX` of its UTF-8 bytes. -/
def encodeURIComponent (s : String) : String :=
  String.mk (s.data.flatMap fun c =>
    if isUriUnreserved c then [c]
    else (utf8Bytes c).flatMap fun b => ['%', hexDigitUpper (b / 16), hexDigitUpper (b % 16)])

/-! ## The page state -/

/-- The endpoint prefix (script.js 7). -/
def API_BASE_URL : String := "http://localhost:5000/api"

/-- The key of the `localStorage` slot (script.js 8). -/
def STORAGE_KEY : String := "phishguard_history"

/-- A `fetch` that has been issued and has not settled: the arguments of the
`performAnalysis` call that is suspended on it. -/
structure Request where
  inputType : String
  inputText : String
deriving Repr, DecidableEq

/-- The address a request is sent to (script.js 148). -/
def Request.url (_ : Request) : String := API_BASE_URL ++ "/analyze"

/-- The body of a request (script.js 153-156). -/
def Request.body (r : Request) : String :=
  JSON.stringify (.obj [("type", .str r.inputType), ("input", .str r.inputText)])

/-- The text of an error notification: a message of the script, or the wording
the engine gives an error of its own, which is never empty. -/
inductive Notice where
  | text (message : String)
  | engine (kind : JSError)
deriving Repr, DecidableEq

/-- A download started by clicking a generated link. -/
structure Download where
  href : String
  fileName : String
deriving Repr, DecidableEq

/-- How a `fetch` settles: it rejects (a transport error, a `TypeError`), or it
resolves with a response of some status and body. -/
inductive FetchOutcome where
  | rejected
  | response (ok : Bool) (body : String)
deriving Repr, DecidableEq

/-- The state of the page: the two variables of the script, the `localStorage`
slot under `STORAGE_KEY`, the requests in flight, and the part of the document
the handlers read or the statements below speak of. -/
structure AppState where
  /-- `currentAnalysis` (script.js 40). -/
  currentAnalysis : JSValue
  /-- `analysisHistory` (script.js 41). -/
  analysisHistory : JSValue
  /-- `localStorage.getItem(STORAGE_KEY)`, `none` for `null`. -/
  storage : Option String
  /-- `elements.inputType.value`. -/
  inputType : String
  /-- `elements.userInput.value`. -/
  userInput : String
  /-- `elements.charCount.textContent`. -/
  charCount : Nat
  /-- `elements.analyzeBtn.disabled`. -/
  analyzeBtnDisabled : Bool
  /-- Does `elements.loadingState` carry the class `hidden`. -/
  loadingHidden : Bool
  /-- Does `elements.resultsSection` carry the class `hidden`. -/
  resultsHidden : Bool
  /-- The records shown as rows of `elements.historyList`; none for the
  "no history" text. -/
  historyList : List JSValue
  /-- The error notifications shown so far, oldest first. -/
  notices : List Notice
  /-- The requests in flight, oldest first. -/
  pending : List Request
  /-- The downloads started so far, oldest first. -/
  downloads : List Download
deriving Repr, DecidableEq

/-- The state of a handler when it returned or threw. -/
structure Outcome where
  state : AppState
  thrown : Option JSError
deriving Repr, DecidableEq

/-- Run `next` unless the step before it threw. -/
def Outcome.andThen (o : Outcome) (next : AppState → Outcome) : Outcome :=
  match o.thrown with
  | none => next o.state
  | some _ => o

/-- The page as the script's top level leaves it (script.js 40-41) over a
`localStorage` slot `storage`: no analysis, an empty history, no request in
flight.  The form holds `inputType` and no text; the analyze button is enabled
and the loading and results panels are hidden. -/
def initialState (storage : Option String) (inputType : String) : AppState where
  currentAnalysis := .null
  analysisHistory := .arr []
  storage := storage
  inputType := inputType
  userInput := ""
  charCount := 0
  analyzeBtnDisabled := false
  loadingHidden := true
  resultsHidden := true
  historyList := []
  notices := []
  pending := []
  downloads := []

/-! ## The handlers -/

/-- `showError` (script.js 467-513): one more notification. -/
def showError (st : AppState) (n : Notice) : AppState :=
  { st with notices := st.notices ++ [n] }

/-- `hideResults` (script.js 252-254). -/
def hideResults (st : AppState) : AppState := { st with resultsHidden := true }

/-- `showLoading` (script.js 224-232). -/
def showLoading (st : AppState) : AppState :=
  hideResults { st with analyzeBtnDisabled := true, loadingHidden := false }

/-- `hideLoading` (script.js 237-247). -/
def hideLoading (st : AppState) : AppState :=
  { st with analyzeBtnDisabled := false, loadingHidden := true }

/-- `updateCharCount` (script.js 136-139). -/
def updateCharCount (st : AppState) : AppState :=
  { st with charCount := utf16Length st.userInput }

/-- `handleInputTypeChange` (script.js 114-131); the label and the placeholder it
sets are not part of the state. -/
def handleInputTypeChange (st : AppState) : AppState := hideResults st

/-- Does assigning a possibly `undefined` value to `textContent`, or putting it
in a template literal, throw. -/
def textThrows : Option JSValue → Bool
  | none => false
  | some v => toStringThrows v

/-- Does calling a method of `String.prototype` (`toLowerCase`, `substring`) on
a possibly `undefined` value throw: it does unless the value is a string. -/
def stringMethodThrows : Option JSValue → Bool
  | some (.str _) => false
  | _ => true

/-- Script.js 201-212: the triggered rules are listed when the property is truthy
and its `length` exceeds zero; `forEach` exists on an array only, and each rule
becomes the text of a list item. -/
def displayRules (host : Host) (rules : Option JSValue) : Except JSError Unit :=
  match rules with
  | none => .ok ()
  | some r =>
    if r.truthy then
      match getLength r with
      | .error e => .error e
      | .ok len =>
        match greaterThanZero host len with
        | .error e => .error e
        | .ok false => .ok ()
        | .ok true =>
          match r with
          | .arr xs => if toStringThrowsList xs then .error .typeError else .ok ()
          | _ => .error .typeError
    else .ok ()

/-- The statements of `displayResults` that can throw (script.js 189-212), in
order. -/
def displayChecks (host : Host) (analysis : JSValue) : Except JSError Unit :=
  match getNamed analysis "score", getNamed analysis "risk_level",
    getNamed analysis "analysis_summary", getNamed analysis "triggered_rules" with
  | .ok score, .ok level, .ok summary, .ok rules =>
    if textThrows score then .error .typeError
    else if stringMethodThrows level then .error .typeError
    else if textThrows summary then .error .typeError
    else displayRules host rules
  | _, _, _, _ => .error .typeError

/-- `displayResults` (script.js 187-219): fills the results section and, last,
shows it.  The texts it writes are not part of the state. -/
def displayResults (host : Host) (st : AppState) (analysis : JSValue) : Outcome :=
  match displayChecks host analysis with
  | .ok () => ⟨{ st with resultsHidden := false }, none⟩
  | .error e => ⟨st, some e⟩

/-- `saveToHistory` (script.js 298-307): `unshift`, cut to the first fifty, write
the slot.  `unshift` exists on an array only; `localStorage.setItem` is taken to
succeed. -/
def saveToHistory (st : AppState) (analysis : JSValue) : Outcome :=
  match st.analysisHistory with
  | .arr items =>
    let unshifted := analysis :: items
    let kept := if 50 < unshifted.length then unshifted.take 50 else unshifted
    ⟨{ st with analysisHistory := .arr kept,
               storage := some (JSON.stringify (.arr kept)) }, none⟩
  | _ => ⟨st, some .typeError⟩

/-- `loadHistory` (script.js 312-322): a non-empty stored string is parsed and
whatever it parses to becomes `analysisHistory`; a string that does not parse
gives the empty array. -/
def loadHistory (st : AppState) : AppState :=
  match st.storage with
  | none => st
  | some stored =>
    if stored = "" then st
    else
      match JSON.parse stored with
      | .ok v => { st with analysisHistory := v }
      | .error _ => { st with analysisHistory := .arr [] }

/-- Does building the row of one history item throw (script.js 336-350): the
item's properties are read, `timestamp` goes through `new Date`, `inputType` and
`score` into a template literal, and `risk_level` and `input` must be strings. -/
def historyItemThrows (item : JSValue) : Bool :=
  match getNamed item "timestamp", getNamed item "inputType", getNamed item "risk_level",
    getNamed item "score", getNamed item "input" with
  | .ok timestamp, .ok inputType, .ok level, .ok score, .ok input =>
    textThrows timestamp || textThrows inputType || stringMethodThrows level ||
      textThrows score || stringMethodThrows input
  | _, _, _, _, _ => true

/-- The `forEach` of `updateHistoryDisplay`: rows are appended until an item throws. -/
def renderHistory (st : AppState) : List JSValue → Outcome
  | [] => ⟨st, none⟩
  | item :: items =>
    if historyItemThrows item then ⟨st, some .typeError⟩
    else renderHistory { st with historyList := st.historyList ++ [item] } items

/-- `updateHistoryDisplay` (script.js 327-354). -/
def updateHistoryDisplay (st : AppState) : Outcome :=
  match getLength st.analysisHistory with
  | .error e => ⟨st, some e⟩
  | .ok len =>
    if strictlyZero len then ⟨{ st with historyList := [] }, none⟩
    else
      match st.analysisHistory with
      | .arr items => renderHistory { st with historyList := [] } items
      | _ => ⟨{ st with historyList := [] }, some .typeError⟩

/-- `ToString` of a possibly `undefined` value on which it does not throw. -/
def textOf : Option JSValue → String
  | none => "undefined"
  | some v => String.mk (toStringJS v)

/-- The text that assigning a possibly `undefined` value to the `value` of the
input field gives the setter: `ToString`, but the empty string for `null`. -/
def fieldTextOf : Option JSValue → String
  | some .null => ""
  | v => textOf v

/-- `loadHistoryItem` (script.js 359-366), the click handler that
`updateHistoryDisplay` gives every history row (script.js 338): the item becomes
`currentAnalysis`, its `inputType` and `input` are assigned to the two form
controls, then `handleInputTypeChange`, `updateCharCount` and `displayResults`
run. -/
def loadHistoryItem (host : Host) (st : AppState) (item : JSValue) : Outcome :=
  let st1 := { st with currentAnalysis := item }
  match getNamed item "inputType" with
  | .error e => ⟨st1, some e⟩
  | .ok inputType =>
    if textThrows inputType then ⟨st1, some .typeError⟩
    else
      let st2 := { st1 with inputType := host.selectValue (textOf inputType) }
      match getNamed item "input" with
      | .error e => ⟨st2, some e⟩
      | .ok input =>
        if textThrows input then ⟨st2, some .typeError⟩
        else
          displayResults host
            (updateCharCount (handleInputTypeChange
              { st2 with userInput := host.fieldValue (fieldTextOf input) }))
            item

/-- `clearHistory` (script.js 371-377); `confirmed` is the answer to `confirm`. -/
def clearHistory (st : AppState) (confirmed : Bool) : Outcome :=
  if confirmed then
    updateHistoryDisplay { st with analysisHistory := .arr [], storage := none }
  else ⟨st, none⟩

/-- `startNewAnalysis` (script.js 287-293); `defaultType` is the value
`form.reset()` gives the type selector. -/
def startNewAnalysis (st : AppState) (defaultType : String) : AppState :=
  hideResults (updateCharCount { st with inputType := defaultType, userInput := "" })

/-- The object literal of script.js 165-170: the response's own properties, then
`input`, `inputType` and `timestamp`. -/
def analysisRecord (result : JSValue) (inputType inputText now : String) : JSValue :=
  .obj (setField (setField (setField (spread result) "input" (.str inputText))
    "inputType" (.str inputType)) "timestamp" (.str now))

/-- The error thrown for a response that is not `ok` (script.js 160-161):
`new Error(errorData.error || 'Analysis failed')`. -/
def notOkError (errorData : JSValue) : JSError :=
  match getNamed errorData "error" with
  | .error e => e
  | .ok reason =>
    match reason with
    | some v =>
      if v.truthy then
        if toStringThrows v then .typeError else .error (String.mk (toStringJS v))
      else .error "Analysis failed"
    | none => .error "Analysis failed"

/-- The `try` block of `performAnalysis` after the `fetch` has settled
(script.js 159-174). -/
def analysisBody (host : Host) (st : AppState) (req : Request) (now : String) :
    FetchOutcome → Outcome
  | .rejected => ⟨st, some .typeError⟩
  | .response false body =>
    match JSON.parse body with
    | .error e => ⟨st, some e⟩
    | .ok errorData => ⟨st, some (notOkError errorData)⟩
  | .response true body =>
    match JSON.parse body with
    | .error e => ⟨st, some e⟩
    | .ok result =>
      let analysis := analysisRecord result req.inputType req.inputText now
      ((displayResults host { st with currentAnalysis := analysis } analysis).andThen
        (fun s => saveToHistory s analysis)).andThen updateHistoryDisplay

/-- The notification of the `catch` block (script.js 178):
`error.message || 'Failed to analyze content. Please try again.'`. -/
def noticeOf : JSError → Notice
  | .error message =>
    if message = "" then .text "Failed to analyze content. Please try again."
    else .text message
  | e => .engine e

/-- `performAnalysis` up to its first `await` (script.js 145-157): `showLoading`,
then the request is issued. -/
def performAnalysisStart (st : AppState) (inputType inputText : String) : AppState :=
  { showLoading st with pending := st.pending ++ [⟨inputType, inputText⟩] }

/-- `performAnalysis` from the moment the `fetch` of the `i`-th request in flight
settles (script.js 159-181): the `try` block, the `catch` and the `finally`. -/
def performAnalysisResume (host : Host) (st : AppState) (i : Nat) (now : String)
    (outcome : FetchOutcome) : AppState :=
  match st.pending.get? i with
  | none => st
  | some req =>
    let o := analysisBody host { st with pending := st.pending.eraseIdx i } req now outcome
    hideLoading
      (match o.thrown with
       | some e => showError o.state (noticeOf e)
       | none => o.state)

/-- `performAnalysis` (script.js 144-182) run from the call to the end, the
`fetch` settling as `outcome` at the time `now`. -/
def performAnalysis (host : Host) (st : AppState) (inputType inputText now : String)
    (outcome : FetchOutcome) : AppState :=
  performAnalysisResume host (performAnalysisStart st inputType inputText)
    st.pending.length now outcome

/-- `handleFormSubmit` (script.js 91-109) up to the first `await` of the
analysis it starts. -/
def handleFormSubmit (host : Host) (st : AppState) : AppState :=
  let inputType := st.inputType
  let inputText := trim st.userInput
  if inputText = "" then showError st (.text "Please enter content to analyze")
  else if inputType = "url" ∧ isValidUrl host inputText = false then
    showError st (.text "Please enter a valid URL")
  else performAnalysisStart st inputType inputText

/-- The property `k` of a value that is not `null` (`undefined` is `none`). -/
def property (v : JSValue) (k : String) : Option JSValue :=
  match getNamed v k with
  | .ok x => x
  | .error _ => none

/-- The report object of `exportReport` (script.js 262-270) as it is serialised;
`analysis` is `currentAnalysis`, which is truthy here. -/
def reportFields (analysis : JSValue) : List (String × JSValue) :=
  definedFields
    [("timestamp", property analysis "timestamp"),
     ("input_type", property analysis "inputType"),
     ("input", property analysis "input"),
     ("risk_level", property analysis "risk_level"),
     ("risk_score", property analysis "score"),
     ("triggered_rules", property analysis "triggered_rules"),
     ("analysis_summary", property analysis "analysis_summary")]

/-- The serialised report, `dataStr` (script.js 273). -/
def reportDocument (analysis : JSValue) : String :=
  String.mk (prettyValue 0 (.obj (reportFields analysis)))

/-- `exportReport` (script.js 259-282); `now` is `new Date().toISOString()`. -/
def exportReport (st : AppState) (now : String) : AppState :=
  if st.currentAnalysis.truthy then
    { st with downloads := st.downloads ++
        [{ href := "data:application/json;charset=utf-8," ++
             encodeURIComponent (reportDocument st.currentAnalysis),
           fileName := "phishguard_report_" ++
             String.mk (now.data.takeWhile (fun c => c != 'T')) ++ ".json" }] }
  else st

/-- The `DOMContentLoaded` handler (script.js 44-48) after the listeners are
installed: `loadHistory`, then `updateHistoryDisplay`. -/
def startup (st : AppState) : Outcome := updateHistoryDisplay (loadHistory st)

/-! ## What the statements below are phrased in -/

/-- `saveToHistory` called on the records of a list, first to last. -/
def saveAll (st : AppState) : List JSValue → Outcome
  | [] => ⟨st, none⟩
  | r :: rs => (saveToHistory st r).andThen (fun s => saveAll s rs)

/-- The length of `analysisHistory` when it is an array. -/
def historyLength (st : AppState) : Option Nat :=
  match st.analysisHistory with
  | .arr items => some items.length
  | _ => none

/-- The risk level the page's own help text gives a score (script.js 400-402):
low up to 39, medium up to 69, high above. -/
def riskLevelOf (score : Int) : String :=
  if score ≤ 39 then "LOW" else if score ≤ 69 then "MEDIUM" else "HIGH"

/-- Does the parsed URL have a host: a special scheme always has one, another
scheme only when `//` follows it. -/
def urlHasHost (string : String) : Bool :=
  match schemeStartState ((stripBoth (fun c => c.toNat ≤ 32) string.data).filter
      (fun c => !(c = '\t' || c = '\n' || c = '\r'))) with
  | none => false
  | some (scheme, rest) =>
    isSpecialScheme scheme ||
      (match rest with
       | '/' :: '/' :: _ => true
       | _ => false)

/-- Is `v` a string. -/
def JSValue.isStr : JSValue → Bool
  | .str _ => true
  | _ => false

/-- May the property `k` of an analysis record hold `v`: `score` an integer from
0 to 100, `triggered_rules` an array of strings, the five others a string. -/
def isRecordField (k : String) (v : JSValue) : Bool :=
  if k = "score" then
    (match v with
     | .num m 0 => decide (0 ≤ m ∧ m ≤ 100)
     | _ => false)
  else if k = "triggered_rules" then
    (match v with
     | .arr xs => xs.all JSValue.isStr
     | _ => false)
  else if k = "risk_level" ∨ k = "analysis_summary" ∨ k = "input" ∨ k = "inputType" ∨
      k = "timestamp" then v.isStr
  else false

/-- The seven properties of an analysis record. -/
def recordKeys : List String :=
  ["score", "risk_level", "analysis_summary", "triggered_rules", "input", "inputType",
    "timestamp"]

/-- A valid analysis record: an object with exactly the seven properties, in any
order, each of its type. -/
def isValidRecord : JSValue → Bool
  | .obj fs =>
    decide (fs.map Prod.fst).Nodup && fs.all (fun kv => isRecordField kv.1 kv.2) &&
      recordKeys.all (fun k => (lookupField k fs).isSome)
  | _ => false

/-- One event of the page, one constructor for each listener the script installs
(script.js 55-66 and 338) that writes the state, one for the user editing the
form and one for a `fetch` settling.  A submission is made through the analyze
button, so only while the button is enabled; a history row is clicked only while
it is in the list; a request in flight settles at any time; the other handlers
run at any time.  The listeners of the modal (script.js 69-85) write nothing of
the state. -/
inductive Step (host : Host) : AppState → AppState → Prop where
  | edit (st : AppState) (inputType userInput : String) :
      Step host st { st with inputType := inputType, userInput := userInput }
  | submit (st : AppState) :
      st.analyzeBtnDisabled = false → Step host st (handleFormSubmit host st)
  | settle (st : AppState) (i : Nat) (now : String) (outcome : FetchOutcome) :
      Step host st (performAnalysisResume host st i now outcome)
  | typeChange (st : AppState) : Step host st (handleInputTypeChange st)
  | input (st : AppState) : Step host st (updateCharCount st)
  | newAnalysis (st : AppState) (defaultType : String) :
      Step host st (startNewAnalysis st defaultType)
  | exportClick (st : AppState) (now : String) : Step host st (exportReport st now)
  | clear (st : AppState) (confirmed : Bool) : Step host st (clearHistory st confirmed).state
  | historyClick (st : AppState) (item : JSValue) :
      item ∈ st.historyList → Step host st (loadHistoryItem host st item).state

/-- The states the page reaches from its start-up. -/
inductive Reachable (host : Host) : AppState → Prop where
  | start (storage : Option String) (inputType : String) :
      Reachable host (startup (initialState storage inputType)).state
  | step {st st' : AppState} : Reachable host st → Step host st st' → Reachable host st'

/-- Two states agree on everything but the history, the slot and the two panels
that `displayResults` and `updateHistoryDisplay` write. -/
def SameShell (a b : AppState) : Prop :=
  a.currentAnalysis = b.currentAnalysis ∧ a.inputType = b.inputType ∧
  a.userInput = b.userInput ∧ a.charCount = b.charCount ∧
  a.analyzeBtnDisabled = b.analyzeBtnDisabled ∧ a.loadingHidden = b.loadingHidden ∧
  a.notices = b.notices ∧ a.pending = b.pending ∧ a.downloads = b.downloads

/-- Two states agree on what a settling request reads and writes besides the
notices: the two variables of the script, the slot and the history rows. -/
def SameData (a b : AppState) : Prop :=
  a.currentAnalysis = b.currentAnalysis ∧ a.analysisHistory = b.analysisHistory ∧
  a.storage = b.storage ∧ a.historyList = b.historyList

/-- The fields of the report and the property of the record that each is read
from (script.js 263-269), in the order of the object literal. -/
def reportSources : List (String × String) :=
  [("timestamp", "timestamp"), ("input_type", "inputType"), ("input", "input"),
   ("risk_level", "risk_level"), ("risk_score", "score"),
   ("triggered_rules", "triggered_rules"), ("analysis_summary", "analysis_summary")]

/-- The downloads that `exportReport` starts when it is called in the state `st`
at the time `now`. -/
def exported (st : AppState) (now : String) : List Download :=
  (exportReport st now).downloads.drop st.downloads.length

/-- A request that fails before a payload is read: the `fetch` rejects, the
status is not a success, or the body of a success is not JSON. -/
def failsBeforePayload : FetchOutcome → Bool
  | .rejected => true
  | .response false _ => true
  | .response true body =>
    match JSON.parse body with
    | .ok _ => false
    | .error _ => true

/-- A success whose payload is wrongly shaped: it parses, and `displayResults`
throws on the record built from it. -/
def isWronglyShaped (host : Host) (inputType inputText now : String) :
    FetchOutcome → Bool
  | .response true body =>
    match JSON.parse body with
    | .ok result =>
      (match displayChecks host (analysisRecord result inputType inputText now) with
       | .ok _ => false
       | .error _ => true)
    | .error _ => false
  | _ => false

/-- Does the text after a value start with none of the characters that could
continue a number. -/
def endsNumber : List Char → Bool
  | [] => true
  | c :: _ => !(isDigit c || c = '.' || c = 'e' || c = 'E')

/-- Does the text after a value start like what may follow a value inside an
array or an object, or is it empty. -/
def endsValue : List Char → Bool
  | [] => true
  | c :: _ => c = ',' || c = ']' || c = '}'

/-- A character that starts a value: not white space, not a closing bracket. -/
def startsValue (c : Char) : Bool :=
  !(isWs c) && c != ']' && c != '}' && c != ',' && c != ':'

mutual
/-- A value as the engine holds it, with integers for numbers: every number is
an integer, and the fields of every object are in property order with no key
twice, so that defining them one after the other gives the same object. -/
def isCanonical : JSValue → Bool
  | .num _ e => e == 0
  | .arr xs => isCanonicalList xs
  | .obj fs =>
    decide (fs.foldl (fun acc kv => setField acc kv.1 kv.2) [] = fs) && isCanonicalFields fs
  | _ => true
/-- Every element is canonical. -/
def isCanonicalList : List JSValue → Bool
  | [] => true
  | x :: xs => isCanonical x && isCanonicalList xs
/-- Every field value is canonical. -/
def isCanonicalFields : List (String × JSValue) → Bool
  | [] => true
  | (_, v) :: fs => isCanonical v && isCanonicalFields fs
end

/-- Fifty-one records, of scores 0 to 50, oldest first. -/
def sampleRecords : List JSValue :=
  (List.range 51).map (fun i => JSValue.obj [("score", JSValue.int (Int.ofNat i))])

/-! ## The history store -/

theorem take_append_take {α : Type} (n : Nat) (a b : List α) :
    (a ++ b.take n).take n = (a ++ b).take n := by
  rw [List.take_append_eq_append_take, List.take_append_eq_append_take, List.take_take]
  congr 2
  omega

theorem saveToHistory_arr (st : AppState) (a : JSValue) (items : List JSValue)
    (h : st.analysisHistory = .arr items) :
    saveToHistory st a =
      ⟨{ st with analysisHistory := .arr ((a :: items).take 50),
                 storage := some (JSON.stringify (.arr ((a :: items).take 50))) }, none⟩ := by
  have hk : (if 50 < (a :: items).length then (a :: items).take 50 else a :: items)
      = (a :: items).take 50 := by
    split
    · rfl
    · rw [List.take_of_length_le (by omega)]
  simp only [saveToHistory, h, hk]

theorem saveAll_arr (rs : List JSValue) :
    ∀ (st : AppState) (items : List JSValue), st.analysisHistory = .arr items →
      items.length ≤ 50 →
      (saveAll st rs).thrown = none ∧
      (saveAll st rs).state.analysisHistory = .arr ((rs.reverse ++ items).take 50) := by
  induction rs with
  | nil =>
    intro st items h hl
    simp [saveAll, h, List.take_of_length_le hl]
  | cons r rs ih =>
    intro st items h _
    rw [saveAll, saveToHistory_arr st r items h]
    simp only [Outcome.andThen]
    have hl : ((r :: items).take 50).length ≤ 50 := by
      rw [List.length_take]; omega
    refine ⟨(ih _ ((r :: items).take 50) ?_ hl).1, ?_⟩
    · rfl
    · rw [(ih _ ((r :: items).take 50) ?_ hl).2, take_append_take]
      · simp
      · rfl

theorem saveAll_storage (rs : List JSValue) :
    ∀ (st : AppState) (items : List JSValue), st.analysisHistory = .arr items →
      rs ≠ [] →
      (saveAll st rs).state.storage =
        some (JSON.stringify (saveAll st rs).state.analysisHistory) := by
  induction rs with
  | nil => intro st items _ h; exact absurd rfl h
  | cons r rs ih =>
    intro st items h _
    rw [saveAll, saveToHistory_arr st r items h]
    simp only [Outcome.andThen]
    cases rs with
    | nil => simp [saveAll]
    | cons r2 rs2 => exact ih _ ((r :: items).take 50) rfl (by simp)

/-! ## Frame lemmas -/

theorem renderHistory_frame (items : List JSValue) :
    ∀ st : AppState, ∃ rows,
      (renderHistory st items).state = { st with historyList := rows } := by
  induction items with
  | nil => intro st; exact ⟨st.historyList, rfl⟩
  | cons item items ih =>
    intro st
    rw [renderHistory]
    split
    · exact ⟨st.historyList, rfl⟩
    · obtain ⟨rows, h⟩ := ih { st with historyList := st.historyList ++ [item] }
      exact ⟨rows, h⟩

theorem updateHistoryDisplay_frame (st : AppState) :
    ∃ rows, (updateHistoryDisplay st).state = { st with historyList := rows } := by
  unfold updateHistoryDisplay
  split
  · exact ⟨st.historyList, rfl⟩
  · split
    · exact ⟨[], rfl⟩
    · split
      · obtain ⟨rows, h⟩ := renderHistory_frame _ { st with historyList := [] }
        exact ⟨rows, h⟩
      · exact ⟨[], rfl⟩

theorem displayResults_frame (host : Host) (st : AppState) (a : JSValue) :
    ∃ hidden, (displayResults host st a).state = { st with resultsHidden := hidden } := by
  unfold displayResults
  split
  · exact ⟨false, rfl⟩
  · exact ⟨st.resultsHidden, rfl⟩

theorem SameShell.refl (a : AppState) : SameShell a a :=
  ⟨rfl, rfl, rfl, rfl, rfl, rfl, rfl, rfl, rfl⟩

theorem SameShell.trans {a b c : AppState} (h1 : SameShell a b) (h2 : SameShell b c) :
    SameShell a c := by
  obtain ⟨a1, a2, a3, a4, a5, a6, a7, a8, a9⟩ := h1
  obtain ⟨b1, b2, b3, b4, b5, b6, b7, b8, b9⟩ := h2
  exact ⟨a1.trans b1, a2.trans b2, a3.trans b3, a4.trans b4, a5.trans b5, a6.trans b6,
    a7.trans b7, a8.trans b8, a9.trans b9⟩

theorem displayResults_shell (host : Host) (st : AppState) (a : JSValue) :
    SameShell (displayResults host st a).state st := by
  obtain ⟨hidden, h⟩ := displayResults_frame host st a
  rw [h]; exact SameShell.refl st

theorem saveToHistory_shell (st : AppState) (a : JSValue) :
    SameShell (saveToHistory st a).state st := by
  unfold saveToHistory
  split <;> exact SameShell.refl st

theorem updateHistoryDisplay_shell (st : AppState) :
    SameShell (updateHistoryDisplay st).state st := by
  obtain ⟨rows, h⟩ := updateHistoryDisplay_frame st
  rw [h]; exact SameShell.refl st

theorem andThen_shell (o : Outcome) (next : AppState → Outcome) (st : AppState)
    (h1 : SameShell o.state st) (h2 : ∀ s, SameShell (next s).state s) :
    SameShell (o.andThen next).state st := by
  unfold Outcome.andThen
  split
  · exact (h2 o.state).trans h1
  · exact h1

/-- The `try` block after a response that parsed: the record is assigned, then
shown, saved and listed. -/
theorem analysisBody_shell (host : Host) (st : AppState) (req : Request) (now : String)
    (outcome : FetchOutcome) :
    ∃ current, SameShell (analysisBody host st req now outcome).state
      { st with currentAnalysis := current } := by
  unfold analysisBody
  split
  · exact ⟨st.currentAnalysis, SameShell.refl st⟩
  · split <;> exact ⟨st.currentAnalysis, SameShell.refl st⟩
  · split
    · exact ⟨st.currentAnalysis, SameShell.refl st⟩
    · rename_i result _
      refine ⟨analysisRecord result req.inputType req.inputText now, ?_⟩
      apply andThen_shell _ _ _ _ updateHistoryDisplay_shell
      apply andThen_shell _ _ _ _ (fun s => saveToHistory_shell s _)
      exact displayResults_shell _ _ _

/-! ## Object properties -/

theorem lookupField_replaceField (k k' : String) (v : JSValue)
    (fs : List (String × JSValue)) (h : k ≠ k') :
    lookupField k (replaceField k' v fs) = lookupField k fs := by
  induction fs with
  | nil => rfl
  | cons f fs ih =>
    obtain ⟨kf, vf⟩ := f
    simp only [replaceField]
    split
    · rename_i hk
      subst hk
      simp [lookupField, Ne.symm h]
    · simp [lookupField, ih]

theorem lookupField_insertIndexed (k k' : String) (i : Nat) (v : JSValue)
    (fs : List (String × JSValue)) (h : k ≠ k') :
    lookupField k (insertIndexed i k' v fs) = lookupField k fs := by
  induction fs with
  | nil => simp [insertIndexed, lookupField, Ne.symm h]
  | cons f fs ih =>
    obtain ⟨kf, vf⟩ := f
    simp only [insertIndexed]
    split
    · split
      · simp [lookupField, ih]
      · simp [lookupField, Ne.symm h]
    · simp [lookupField, Ne.symm h]

theorem lookupField_append_single (k k' : String) (v : JSValue)
    (fs : List (String × JSValue)) (h : k ≠ k') :
    lookupField k (fs ++ [(k', v)]) = lookupField k fs := by
  induction fs with
  | nil => simp [lookupField, Ne.symm h]
  | cons f fs ih =>
    obtain ⟨kf, vf⟩ := f
    simp [lookupField, ih]

theorem lookupField_setField_ne (k k' : String) (v : JSValue)
    (fs : List (String × JSValue)) (h : k ≠ k') :
    lookupField k (setField fs k' v) = lookupField k fs := by
  unfold setField
  split
  · exact lookupField_replaceField k k' v fs h
  · split
    · exact lookupField_insertIndexed k k' _ v fs h
    · exact lookupField_append_single k k' v fs h

/-- The record keeps every property of the response but `input`, `inputType`
and `timestamp`. -/
theorem property_analysisRecord (fs : List (String × JSValue))
    (inputType inputText now k : String)
    (h1 : k ≠ "input") (h2 : k ≠ "inputType") (h3 : k ≠ "timestamp") :
    property (analysisRecord (.obj fs) inputType inputText now) k = lookupField k fs := by
  simp only [property, analysisRecord, getNamed, spread]
  rw [lookupField_setField_ne _ _ _ _ h3, lookupField_setField_ne _ _ _ _ h2,
    lookupField_setField_ne _ _ _ _ h1]

theorem performAnalysis_eq (host : Host) (st : AppState) (inputType inputText now : String)
    (outcome : FetchOutcome) :
    performAnalysis host st inputType inputText now outcome =
      hideLoading
        (match (analysisBody host (showLoading st) ⟨inputType, inputText⟩ now outcome).thrown with
         | some e =>
           showError (analysisBody host (showLoading st) ⟨inputType, inputText⟩ now outcome).state
             (noticeOf e)
         | none => (analysisBody host (showLoading st) ⟨inputType, inputText⟩ now outcome).state) := by
  simp [performAnalysis, performAnalysisResume, performAnalysisStart, List.eraseIdx_append_of_length_le]
  rfl

/-! ## C1 and C2 -/

/-- C1: starting from the empty history, after `saveToHistory` has been called on
any finite sequence of records, one after the other, no call has thrown and
`analysisHistory` is an array of at most fifty records. -/
theorem history_length_le_capacity (st : AppState) (records : List JSValue) :
    (saveAll { st with analysisHistory := .arr [] } records).thrown = none ∧
    ∃ n, historyLength (saveAll { st with analysisHistory := .arr [] } records).state = some n ∧
      n ≤ 50 := by
  obtain ⟨h1, h2⟩ := saveAll_arr records { st with analysisHistory := .arr [] } [] rfl
    (by simp)
  refine ⟨h1, ((records.reverse ++ []).take 50).length, ?_, ?_⟩
  · simp only [historyLength, h2]
  · rw [List.length_take]; omega

/-- C2: starting from the empty history, `saveToHistory` called on fifty-one
records `r1 … r51` in that order leaves `analysisHistory` equal to
`[r51, r50, …, r2]` and the slot holding its serialised form; along the way, after
the first `k` records (`k ≤ 50`) the history is `[rk, …, r1]`, the newest record
at position 0 and the older ones in their order. -/
theorem fifty_one_records_drop_oldest (st : AppState) (rs : List JSValue)
    (h : rs.length = 51) :
    (saveAll { st with analysisHistory := .arr [] } rs).thrown = none ∧
    (saveAll { st with analysisHistory := .arr [] } rs).state.analysisHistory
      = .arr rs.tail.reverse ∧
    (saveAll { st with analysisHistory := .arr [] } rs).state.storage
      = some (JSON.stringify (.arr rs.tail.reverse)) ∧
    ∀ k, k ≤ 50 →
      (saveAll { st with analysisHistory := .arr [] } (rs.take k)).state.analysisHistory
        = .arr (rs.take k).reverse := by
  obtain ⟨h1, h2⟩ := saveAll_arr rs { st with analysisHistory := .arr [] } [] rfl (by simp)
  have hne : rs ≠ [] := by
    intro he; rw [he] at h; simp at h
  have h3 := saveAll_storage rs { st with analysisHistory := .arr [] } [] rfl hne
  have htake : (rs.reverse ++ []).take 50 = rs.tail.reverse := by
    cases rs with
    | nil => exact absurd rfl hne
    | cons r rest =>
      simp only [List.length_cons] at h
      simp only [List.append_nil, List.reverse_cons, List.tail_cons]
      rw [List.take_append_of_le_length (by simp; omega),
        List.take_of_length_le (by simp; omega)]
  rw [htake] at h2
  refine ⟨h1, h2, by rw [h3, h2], ?_⟩
  intro k hk
  obtain ⟨_, h5⟩ := saveAll_arr (rs.take k) { st with analysisHistory := .arr [] } [] rfl
    (by simp)
  rw [h5, List.append_nil, List.take_of_length_le (by simp; omega)]

/-- The theorem above at the fifty-one records of scores 0 to 50. -/
theorem fifty_one_records_drop_oldest_witness :
    sampleRecords.length = 51 ∧
    (saveAll { initialState none "url" with analysisHistory := .arr [] }
        sampleRecords).state.analysisHistory = .arr sampleRecords.tail.reverse :=
  ⟨by decide,
   (fifty_one_records_drop_oldest (initialState none "url") sampleRecords (by decide)).2.1⟩

/-! ## Numbers: printing and reading back -/

theorem isDigit_digitChar (d : Nat) (h : d < 10) : isDigit (digitChar d) = true := by
  interval_cases d <;> decide

theorem digitChar_toNat (d : Nat) (h : d < 10) : (digitChar d).toNat - 48 = d := by
  interval_cases d <;> decide

theorem digitChar_ne_zero (d : Nat) (h : d < 10) (h0 : d ≠ 0) : digitChar d ≠ '0' := by
  interval_cases d <;> first | exact absurd rfl h0 | decide

theorem digitsToNat_append (ds : List Char) (c : Char) :
    digitsToNat (ds ++ [c]) = 10 * digitsToNat ds + (c.toNat - 48) := by
  simp [digitsToNat, List.foldl_append]

/-- The digits of `n` written by `natDigitsAux`, with enough fuel. -/
theorem natDigitsAux_spec (fuel : Nat) :
    ∀ (n : Nat) (acc : List Char), n < fuel →
      ∃ ds, natDigitsAux fuel n acc = ds ++ acc ∧ ds.all isDigit = true ∧
        digitsToNat ds = n ∧ (n = 0 → ds = ['0']) ∧
        (n ≠ 0 → ∃ c tail, ds = c :: tail ∧ c ≠ '0') := by
  induction fuel with
  | zero => intro n acc h; omega
  | succ fuel ih =>
    intro n acc h
    simp only [natDigitsAux]
    by_cases h10 : n / 10 = 0
    · have hlt : n < 10 := by omega
      simp only [h10, if_true]
      refine ⟨[digitChar (n % 10)], rfl, ?_, ?_, ?_, ?_⟩
      · simp [isDigit_digitChar (n % 10) (Nat.mod_lt _ (by omega))]
      · simp [digitsToNat, digitChar_toNat (n % 10) (Nat.mod_lt _ (by omega))]
        omega
      · intro h0; subst h0; rfl
      · intro h0
        exact ⟨_, [], rfl, digitChar_ne_zero _ (Nat.mod_lt _ (by omega)) (by omega)⟩
    · simp only [h10, if_false]
      obtain ⟨ds, h1, h2, h3, _, h5⟩ := ih (n / 10) (digitChar (n % 10) :: acc) (by omega)
      obtain ⟨c, tail, hc, hne⟩ := h5 h10
      refine ⟨ds ++ [digitChar (n % 10)], ?_, ?_, ?_, ?_, ?_⟩
      · rw [h1]; simp
      · simp [h2, isDigit_digitChar (n % 10) (Nat.mod_lt _ (by omega))]
      · rw [digitsToNat_append, h3, digitChar_toNat (n % 10) (Nat.mod_lt _ (by omega))]
        omega
      · intro h0; subst h0; simp at h10
      · intro _
        exact ⟨c, tail ++ [digitChar (n % 10)], by rw [hc]; rfl, hne⟩

theorem natDigits_spec (n : Nat) :
    (natDigits n).all isDigit = true ∧ digitsToNat (natDigits n) = n ∧
      (n = 0 → natDigits n = ['0']) ∧
      (n ≠ 0 → ∃ c tail, natDigits n = c :: tail ∧ c ≠ '0') := by
  obtain ⟨ds, h1, h2, h3, h4, h5⟩ := natDigitsAux_spec (n + 1) n [] (by omega)
  have : natDigits n = ds := by simp [natDigits, h1]
  rw [this]
  exact ⟨h2, h3, h4, h5⟩

theorem spanDigits_append (ds rest : List Char) (h : ds.all isDigit = true)
    (hr : endsNumber rest = true) : spanDigits (ds ++ rest) = (ds, rest) := by
  induction ds with
  | nil =>
    cases rest with
    | nil => rfl
    | cons c cs =>
      simp only [endsNumber, Bool.not_eq_true', Bool.or_eq_false_iff] at hr
      simp [spanDigits, hr.1.1.1]
  | cons d ds ih =>
    simp only [List.all_cons, Bool.and_eq_true] at h
    simp [spanDigits, h.1, ih h.2]

theorem parseFrac_of_endsNumber (rest : List Char) (hr : endsNumber rest = true) :
    parseFrac rest = ([], rest) := by
  match rest with
  | [] => rfl
  | [c] => rfl
  | p :: d :: cs =>
    simp only [endsNumber, Bool.not_eq_true', Bool.or_eq_false_iff, decide_eq_false_iff_not] at hr
    simp [parseFrac, hr.1.1.2]

theorem parseExp_of_endsNumber (rest : List Char) (hr : endsNumber rest = true) :
    parseExp rest = (0, rest) := by
  match rest with
  | [] => rfl
  | [c] => rfl
  | p :: d :: cs =>
    simp only [endsNumber, Bool.not_eq_true', Bool.or_eq_false_iff, decide_eq_false_iff_not] at hr
    simp [parseExp, hr.1.2, hr.2]

theorem parseIntPart_natDigits (n : Nat) (rest : List Char) (hr : endsNumber rest = true) :
    parseIntPart (natDigits n ++ rest) = some (natDigits n, rest) := by
  obtain ⟨h1, _, h3, h4⟩ := natDigits_spec n
  by_cases h0 : n = 0
  · rw [h3 h0]; rfl
  · obtain ⟨c, tail, hc, hne⟩ := h4 h0
    rw [hc] at h1 ⊢
    simp only [List.all_cons, Bool.and_eq_true] at h1
    simp [parseIntPart, hne, h1.1, spanDigits_append tail rest h1.2 hr]

theorem parseNumber_int (m : Int) (rest : List Char) (hr : endsNumber rest = true) :
    parseNumber (numberToString m 0 ++ rest) = some (.num m 0, rest) := by
  obtain ⟨h1, h2, h3, h4⟩ := natDigits_spec m.natAbs
  have hhead : ∀ c tail, natDigits m.natAbs = c :: tail → c ≠ '-' := by
    intro c tail hc hminus
    rw [hc] at h1
    simp only [List.all_cons, Bool.and_eq_true] at h1
    rw [hminus] at h1
    exact absurd h1.1 (by decide)
  have hne : natDigits m.natAbs ≠ [] := by
    by_cases h0 : m.natAbs = 0
    · rw [h3 h0]; simp
    · obtain ⟨c, tail, hc, _⟩ := h4 h0
      rw [hc]; simp
  by_cases hneg : m < 0
  · have hstr : numberToString m 0 ++ rest = '-' :: (natDigits m.natAbs ++ rest) := by
      simp [numberToString, hneg]
    rw [hstr]
    simp only [parseNumber, List.head?_cons, decide_True, if_true, List.tail_cons]
    rw [parseIntPart_natDigits _ rest hr]
    simp only [parseFrac_of_endsNumber rest hr, parseExp_of_endsNumber rest hr,
      List.append_nil, h2]
    simp only [mkNumber, List.length_nil, if_true]
    simp [abs_of_neg hneg]
  · have hstr : numberToString m 0 ++ rest = natDigits m.natAbs ++ rest := by
      simp [numberToString, hneg]
    rw [hstr]
    have hhd : decide ((natDigits m.natAbs ++ rest).head? = some '-') = false := by
      cases hd : natDigits m.natAbs with
      | nil => exact absurd hd hne
      | cons c tail =>
        simp only [List.cons_append, List.head?_cons, Option.some.injEq,
          decide_eq_false_iff_not]
        exact hhead c tail hd
    simp only [parseNumber, hhd, Bool.false_eq_true, if_false]
    rw [parseIntPart_natDigits _ rest hr]
    simp only [parseFrac_of_endsNumber rest hr, parseExp_of_endsNumber rest hr,
      List.append_nil, h2]
    simp only [mkNumber, List.length_nil]
    simp [abs_of_nonneg (not_lt.mp hneg)]

/-! ## Strings: quoting and reading back -/

theorem hex4_control (n : Nat) (h : n < 32) :
    hex4? '0' '0' (hexDigit (n / 16)) (hexDigit (n % 16)) = some n := by
  interval_cases n <;> decide

theorem parseStringBody_quoteChar (c : Char) (cs : List Char) :
    parseStringBody (quoteChar c ++ cs) = (parseStringBody cs).map (pushUnit c.toNat) := by
  unfold quoteChar
  by_cases h1 : c = '"'
  · subst h1
    rw [parseStringBody.eq_def]
    simp [unescape?]
  by_cases h2 : c = '\\'
  · subst h2
    rw [parseStringBody.eq_def]
    simp [unescape?]
  by_cases h3 : c.toNat = 8
  · simp only [h1, h2, h3, if_true, if_false]
    rw [parseStringBody.eq_def]
    simp [unescape?, h3]
  by_cases h4 : c.toNat = 9
  · simp only [h1, h2, h3, h4, if_true, if_false]
    rw [parseStringBody.eq_def]
    simp [unescape?, h4]
  by_cases h5 : c.toNat = 10
  · simp only [h1, h2, h3, h4, h5, if_true, if_false]
    rw [parseStringBody.eq_def]
    simp [unescape?, h5]
  by_cases h6 : c.toNat = 12
  · simp only [h1, h2, h3, h4, h5, h6, if_true, if_false]
    rw [parseStringBody.eq_def]
    simp [unescape?, h6]
  by_cases h7 : c.toNat = 13
  · simp only [h1, h2, h3, h4, h5, h6, h7, if_true, if_false]
    rw [parseStringBody.eq_def]
    simp [unescape?, h7]
  by_cases h8 : c.toNat < 32
  · simp only [h1, h2, h3, h4, h5, h6, h7, h8, if_true, if_false]
    rw [parseStringBody.eq_def]
    simp [hex4_control c.toNat h8]
  · simp only [h1, h2, h3, h4, h5, h6, h7, h8, if_false]
    rw [parseStringBody.eq_def]
    simp [h1, h2, h8]

theorem parseStringBody_quoteBody (s rest : List Char) :
    parseStringBody (quoteBody s ++ '"' :: rest) = some (s.map Char.toNat, rest) := by
  induction s with
  | nil =>
    rw [quoteBody, List.nil_append, parseStringBody.eq_def]
    simp
  | cons c cs ih =>
    rw [quoteBody, List.append_assoc, parseStringBody_quoteChar, ih]
    rfl

theorem not_surrogate (c : Char) : ¬ (55296 ≤ c.toNat ∧ c.toNat ≤ 57343) := by
  have h := c.valid
  simp only [Char.toNat, UInt32.isValidChar, Nat.isValidChar] at h ⊢
  have : c.val.toNat = c.val.val.val := rfl
  omega

theorem decodeUnits_toNat (s : List Char) : decodeUnits (s.map Char.toNat) = s := by
  induction s with
  | nil => rfl
  | cons c cs ih =>
    have hc := not_surrogate c
    cases cs with
    | nil => simp [decodeUnits, hc, Char.ofNat_toNat]
    | cons d ds =>
      have h1 : ¬ (55296 ≤ c.toNat ∧ c.toNat ≤ 56319 ∧ 56320 ≤ d.toNat ∧ d.toNat ≤ 57343) := by
        omega
      simp only [List.map_cons] at ih ⊢
      simp only [decodeUnits, h1, hc, if_false, ih, Char.ofNat_toNat]

theorem parseString_quoteBody (s : String) (rest : List Char) :
    parseString (quoteBody s.data ++ '"' :: rest) = some (s, rest) := by
  simp [parseString, parseStringBody_quoteBody, decodeUnits_toNat]

/-! ## Values: `JSON.parse` after `JSON.stringify` -/

theorem endsNumber_of_endsValue (rest : List Char) (h : endsValue rest = true) :
    endsNumber rest = true := by
  cases rest with
  | nil => rfl
  | cons c cs =>
    simp only [endsValue, Bool.or_eq_true, decide_eq_true_eq] at h
    rcases h with (h | h) | h <;> subst h <;> rfl

theorem isDigit_startsValue (c : Char) (h : isDigit c = true) : startsValue c = true := by
  simp only [isDigit, Bool.and_eq_true, decide_eq_true_eq] at h
  have h1 : c.toNat ≠ 32 := by omega
  have h2 : c.toNat ≠ 9 := by omega
  have h3 : c.toNat ≠ 10 := by omega
  have h4 : c.toNat ≠ 13 := by omega
  have h5 : c.toNat ≠ 93 := by omega
  have h6 : c.toNat ≠ 125 := by omega
  have h7 : c.toNat ≠ 44 := by omega
  have h8 : c.toNat ≠ 58 := by omega
  have hne : ∀ d : Char, c.toNat ≠ d.toNat → c ≠ d := fun d hd he => hd (by rw [he])
  simp [startsValue, isWs, hne ' ' h1, hne '\t' h2, hne '\n' h3, hne '\r' h4, hne ']' h5,
    hne '}' h6, hne ',' h7, hne ':' h8]

theorem numberToString_head (m : Int) :
    ∃ c tail, numberToString m 0 = c :: tail ∧ startsValue c = true ∧
      (c = '-' ∨ isDigit c = true) := by
  obtain ⟨h1, _, h3, h4⟩ := natDigits_spec m.natAbs
  have hd : ∃ c tail, natDigits m.natAbs = c :: tail ∧ isDigit c = true := by
    by_cases h0 : m.natAbs = 0
    · exact ⟨'0', [], h3 h0, by decide⟩
    · obtain ⟨c, tail, hc, _⟩ := h4 h0
      rw [hc] at h1
      simp only [List.all_cons, Bool.and_eq_true] at h1
      exact ⟨c, tail, hc, h1.1⟩
  obtain ⟨c, tail, hc, hdig⟩ := hd
  by_cases hneg : m < 0
  · exact ⟨'-', natDigits m.natAbs, by simp [numberToString, hneg], by decide, Or.inl rfl⟩
  · exact ⟨c, tail, by simp [numberToString, hneg, hc], isDigit_startsValue c hdig, Or.inr hdig⟩

theorem stringifyValue_head (v : JSValue) (hv : isCanonical v = true) :
    ∃ c tail, stringifyValue v = c :: tail ∧ startsValue c = true := by
  cases v with
  | null => exact ⟨'n', _, rfl, by decide⟩
  | bool b => cases b <;> exact ⟨_, _, rfl, by decide⟩
  | num m e =>
    simp only [isCanonical, beq_iff_eq] at hv
    subst hv
    obtain ⟨c, tail, h1, h2, _⟩ := numberToString_head m
    exact ⟨c, tail, h1, h2⟩
  | str s => exact ⟨'"', _, rfl, by decide⟩
  | arr xs => exact ⟨'[', _, rfl, by decide⟩
  | obj fs => exact ⟨'{', _, rfl, by decide⟩

theorem skipWs_startsValue (c : Char) (cs : List Char) (h : startsValue c = true) :
    skipWs (c :: cs) = c :: cs := by
  simp only [startsValue, Bool.and_eq_true, Bool.not_eq_true'] at h
  simp [skipWs, h.1.1.1.1]

theorem skipWs_endsValue (rest : List Char) (h : endsValue rest = true) :
    skipWs rest = rest := by
  cases rest with
  | nil => rfl
  | cons c cs =>
    simp only [endsValue, Bool.or_eq_true, decide_eq_true_eq] at h
    rcases h with (h | h) | h <;> subst h <;> simp [skipWs, isWs]

theorem stringifyValue_length_pos (v : JSValue) (hv : isCanonical v = true) :
    0 < (stringifyValue v).length := by
  obtain ⟨c, tail, h, _⟩ := stringifyValue_head v hv
  rw [h]; simp

theorem parseValue_null (fuel : Nat) (rest : List Char) :
    parseValue (fuel + 1) (stringifyValue .null ++ rest) = some (.null, rest) := by
  simp [parseValue, parseLiteral, stringifyValue, skipWs, isWs]

theorem parseValue_bool (fuel : Nat) (b : Bool) (rest : List Char) :
    parseValue (fuel + 1) (stringifyValue (.bool b) ++ rest) = some (.bool b, rest) := by
  cases b <;> simp [parseValue, parseLiteral, stringifyValue, skipWs, isWs]

theorem parseValue_str (fuel : Nat) (s : String) (rest : List Char) :
    parseValue (fuel + 1) (stringifyValue (.str s) ++ rest) = some (.str s, rest) := by
  simp [parseValue, stringifyValue, quoteString, skipWs, isWs, parseString_quoteBody]

theorem parseValue_int (fuel : Nat) (m : Int) (rest : List Char) (hr : endsValue rest = true) :
    parseValue (fuel + 1) (stringifyValue (.num m 0) ++ rest) = some (.num m 0, rest) := by
  obtain ⟨c, tail, h1, h2, h3⟩ := numberToString_head m
  have hnum := parseNumber_int m rest (endsNumber_of_endsValue rest hr)
  simp only [stringifyValue] at *
  rw [h1] at hnum ⊢
  rw [parseValue, List.cons_append, skipWs_startsValue c _ h2]
  have hq : c ≠ '"' ∧ c ≠ '[' ∧ c ≠ '{' ∧ c ≠ 'n' ∧ c ≠ 't' ∧ c ≠ 'f' := by
    rcases h3 with h3 | h3
    · subst h3; decide
    · simp only [isDigit, Bool.and_eq_true, decide_eq_true_eq] at h3
      have hne : ∀ d : Char, c.toNat ≠ d.toNat → c ≠ d := fun d hd he => hd (by rw [he])
      refine ⟨hne _ ?_, hne _ ?_, hne _ ?_, hne _ ?_, hne _ ?_, hne _ ?_⟩ <;>
        simp <;> omega
  simp only [parseLiteral, hq.1, hq.2.1, hq.2.2.1, hq.2.2.2.1, hq.2.2.2.2.1, hq.2.2.2.2.2,
    if_false]
  exact hnum

theorem parseValue_array (fuel : Nat) (c : Char) (tail rest : List Char) (xs : List JSValue)
    (hc : startsValue c = true)
    (hI : parseItems fuel (c :: tail) = some (xs, rest)) :
    parseValue (fuel + 1) ('[' :: c :: tail) = some (.arr xs, rest) := by
  have hne : c ≠ ']' := by
    intro h; subst h; exact absurd hc (by decide)
  rw [parseValue, skipWs_startsValue '[' _ (by decide)]
  simp only [show ¬ ('[' = '"') from by decide, if_false, if_true,
    skipWs_startsValue c _ hc, hne, hI]

theorem parseValue_object (fuel : Nat) (tail rest : List Char)
    (fs : List (String × JSValue))
    (hM : parseMembers fuel ('"' :: tail) [] = some (fs, rest)) :
    parseValue (fuel + 1) ('{' :: '"' :: tail) = some (.obj fs, rest) := by
  rw [parseValue, skipWs_startsValue '{' _ (by decide)]
  simp only [show ¬ ('{' = '"') from by decide, show ¬ ('{' = '[') from by decide,
    if_false, if_true, skipWs_startsValue '"' _ (by decide),
    show ¬ ('"' = '}') from by decide, hM]

theorem parseItems_last (fuel : Nat) (cs rest : List Char) (v : JSValue)
    (hV : parseValue fuel cs = some (v, ']' :: rest)) :
    parseItems (fuel + 1) cs = some ([v], rest) := by
  rw [parseItems]
  simp only [hV, skipWs_startsValue, skipWs, isWs]
  simp

theorem parseItems_more (fuel : Nat) (cs more rest : List Char) (v : JSValue)
    (xs : List JSValue) (hV : parseValue fuel cs = some (v, ',' :: more))
    (hI : parseItems fuel more = some (xs, rest)) :
    parseItems (fuel + 1) cs = some (v :: xs, rest) := by
  rw [parseItems]
  simp only [hV, skipWs, isWs]
  simp [hI]

theorem parseMembers_last (fuel : Nat) (k : String) (cs rest : List Char) (v : JSValue)
    (acc : List (String × JSValue))
    (hV : parseValue fuel cs = some (v, '}' :: rest)) :
    parseMembers (fuel + 1) (quoteString k ++ ':' :: cs) acc
      = some (setField acc k v, rest) := by
  rw [parseMembers]
  simp only [quoteString, List.cons_append, List.append_assoc, List.singleton_append,
    skipWs_startsValue '"' _ (by decide), if_true]
  rw [parseString_quoteBody]
  simp [hV, skipWs, isWs]

theorem parseMembers_more (fuel : Nat) (k : String) (cs more rest : List Char) (v : JSValue)
    (acc out : List (String × JSValue))
    (hV : parseValue fuel cs = some (v, ',' :: more))
    (hM : parseMembers fuel more (setField acc k v) = some (out, rest)) :
    parseMembers (fuel + 1) (quoteString k ++ ':' :: cs) acc = some (out, rest) := by
  rw [parseMembers]
  simp only [quoteString, List.cons_append, List.append_assoc, List.singleton_append,
    skipWs_startsValue '"' _ (by decide), if_true]
  rw [parseString_quoteBody]
  simp [hV, skipWs, isWs, hM]

theorem stringifyItems_head (x : JSValue) (xs : List JSValue) (hx : isCanonical x = true) :
    ∃ c tail, stringifyItems (x :: xs) = c :: tail ∧ startsValue c = true := by
  obtain ⟨c, tail, hc, hsv⟩ := stringifyValue_head x hx
  cases xs with
  | nil => exact ⟨c, tail, by simp [stringifyItems, hc], hsv⟩
  | cons y ys =>
    exact ⟨c, tail ++ ',' :: stringifyItems (y :: ys), by simp [stringifyItems, hc], hsv⟩

theorem stringifyFields_head (f : String × JSValue) (fs : List (String × JSValue)) :
    ∃ tail, stringifyFields (f :: fs) = '"' :: tail := by
  obtain ⟨k, v⟩ := f
  cases fs with
  | nil =>
    exact ⟨quoteBody k.data ++ '"' :: ':' :: stringifyValue v,
      by simp [stringifyFields, quoteString]⟩
  | cons y ys =>
    exact ⟨quoteBody k.data ++ '"' :: ':' ::
        (stringifyValue v ++ ',' :: stringifyFields (y :: ys)),
      by simp [stringifyFields, quoteString]⟩

theorem parse_stringify_fuel (fuel : Nat) :
    (∀ v rest, isCanonical v = true → (stringifyValue v).length ≤ fuel →
      endsValue rest = true →
      parseValue fuel (stringifyValue v ++ rest) = some (v, rest)) ∧
    (∀ x xs rest, isCanonical x = true → isCanonicalList xs = true →
      (stringifyItems (x :: xs)).length < fuel →
      parseItems fuel (stringifyItems (x :: xs) ++ ']' :: rest) = some (x :: xs, rest)) ∧
    (∀ f fs acc rest, isCanonicalFields (f :: fs) = true →
      (stringifyFields (f :: fs)).length < fuel →
      parseMembers fuel (stringifyFields (f :: fs) ++ '}' :: rest) acc =
        some ((f :: fs).foldl (fun acc kv => setField acc kv.1 kv.2) acc, rest)) := by
  induction fuel with
  | zero =>
    refine ⟨?_, ?_, ?_⟩
    · intro v rest hv hlen _
      have := stringifyValue_length_pos v hv
      omega
    · intro x xs rest _ _ hlen; omega
    · intro f fs acc rest _ hlen; omega
  | succ fuel ih =>
    obtain ⟨ihV, ihI, ihM⟩ := ih
    refine ⟨?_, ?_, ?_⟩
    · intro v rest hv hlen hr
      cases v with
      | null => exact parseValue_null fuel rest
      | bool b => exact parseValue_bool fuel b rest
      | num m e =>
        simp only [isCanonical, beq_iff_eq] at hv
        subst hv
        exact parseValue_int fuel m rest hr
      | str s => exact parseValue_str fuel s rest
      | arr xs =>
        cases xs with
        | nil => simp [parseValue, stringifyValue, stringifyItems, skipWs, isWs]
        | cons x xs =>
          simp only [isCanonical, isCanonicalList, Bool.and_eq_true] at hv
          obtain ⟨c, tail, hc, hsv⟩ := stringifyItems_head x xs hv.1
          have hlen2 : (stringifyItems (x :: xs)).length < fuel := by
            simp only [stringifyValue, List.length_cons, List.length_append,
              List.length_singleton] at hlen
            omega
          have hI := ihI x xs rest hv.1 hv.2 hlen2
          have hstr : stringifyValue (.arr (x :: xs)) ++ rest
              = '[' :: c :: (tail ++ ']' :: rest) := by
            simp [stringifyValue, hc]
          rw [hstr]
          apply parseValue_array fuel c _ rest (x :: xs) hsv
          rw [← List.cons_append, ← hc]
          exact hI
      | obj fs =>
        cases fs with
        | nil => simp [parseValue, stringifyValue, stringifyFields, skipWs, isWs]
        | cons f fs =>
          simp only [isCanonical, Bool.and_eq_true, decide_eq_true_eq] at hv
          obtain ⟨tail, hc⟩ := stringifyFields_head f fs
          have hlen2 : (stringifyFields (f :: fs)).length < fuel := by
            simp only [stringifyValue, List.length_cons, List.length_append,
              List.length_singleton] at hlen
            omega
          have hM := ihM f fs [] rest hv.2 hlen2
          have hstr : stringifyValue (.obj (f :: fs)) ++ rest
              = '{' :: '"' :: (tail ++ '}' :: rest) := by
            simp [stringifyValue, hc]
          rw [hstr]
          rw [hv.1] at hM
          apply parseValue_object fuel _ rest (f :: fs)
          rw [← List.cons_append, ← hc]
          exact hM
    · intro x xs rest hx hxs hlen
      cases xs with
      | nil =>
        simp only [stringifyItems] at hlen ⊢
        exact parseItems_last fuel _ rest x (ihV x (']' :: rest) hx (by omega) rfl)
      | cons y ys =>
        simp only [isCanonicalList, Bool.and_eq_true] at hxs
        have hlen' : (stringifyValue x).length + 1 + (stringifyItems (y :: ys)).length
            < fuel + 1 := by
          simp only [stringifyItems, List.length_append, List.length_cons] at hlen
          omega
        have hstr : stringifyItems (x :: y :: ys) ++ ']' :: rest
            = stringifyValue x ++ ',' :: (stringifyItems (y :: ys) ++ ']' :: rest) := by
          simp [stringifyItems]
        rw [hstr]
        exact parseItems_more fuel _ _ rest x (y :: ys)
          (ihV x _ hx (by omega) rfl)
          (ihI y ys rest hxs.1 hxs.2 (by omega))
    · intro f fs acc rest hfs hlen
      obtain ⟨k, v⟩ := f
      cases fs with
      | nil =>
        simp only [isCanonicalFields, Bool.and_eq_true] at hfs
        have hlen' : (stringifyValue v).length < fuel + 1 := by
          simp only [stringifyFields, List.length_append, List.length_cons] at hlen
          omega
        have hstr : stringifyFields [(k, v)] ++ '}' :: rest
            = quoteString k ++ ':' :: (stringifyValue v ++ '}' :: rest) := by
          simp [stringifyFields]
        rw [hstr]
        exact parseMembers_last fuel k _ rest v acc (ihV v _ hfs.1 (by omega) rfl)
      | cons g gs =>
        simp only [isCanonicalFields, Bool.and_eq_true] at hfs
        have hg : isCanonicalFields (g :: gs) = true := by
          obtain ⟨kg, vg⟩ := g
          simp only [isCanonicalFields, Bool.and_eq_true]
          exact hfs.2
        have hlen' : (stringifyValue v).length + 1 + (stringifyFields (g :: gs)).length
            < fuel + 1 := by
          simp only [stringifyFields, List.length_append, List.length_cons] at hlen
          omega
        have hstr : stringifyFields ((k, v) :: g :: gs) ++ '}' :: rest
            = quoteString k ++ ':' ::
              (stringifyValue v ++ ',' :: (stringifyFields (g :: gs) ++ '}' :: rest)) := by
          simp [stringifyFields]
        rw [hstr]
        exact parseMembers_more fuel k _ _ rest v acc _
          (ihV v _ hfs.1 (by omega) rfl)
          (ihM g gs (setField acc k v) rest hg (by omega))

/-- `JSON.parse` gives back every canonical value that `JSON.stringify` wrote. -/
theorem parse_stringify (v : JSValue) (hv : isCanonical v = true) :
    JSON.parse (JSON.stringify v) = .ok v := by
  have h := (parse_stringify_fuel (2 * (stringifyValue v).length + 2)).1 v [] hv
    (by omega) rfl
  rw [List.append_nil] at h
  simp [JSON.parse, JSON.stringify, h, skipWs]

/-! ## The fuel of `JSON.parse` is enough -/

theorem skipWs_length (cs : List Char) : (skipWs cs).length ≤ cs.length := by
  induction cs with
  | nil => simp [skipWs]
  | cons c cs ih =>
    simp only [skipWs]
    split
    · simp only [List.length_cons]; omega
    · simp

theorem parseStringBody_length (n : Nat) :
    ∀ (cs : List Char) (units : List Nat) (rest : List Char), cs.length ≤ n →
      parseStringBody cs = some (units, rest) → rest.length < cs.length := by
  induction n with
  | zero =>
    intro cs units rest hlen h
    cases cs with
    | nil => rw [parseStringBody.eq_def] at h; simp at h
    | cons c cs => simp at hlen
  | succ n ih =>
    intro cs units rest hlen h
    rw [parseStringBody.eq_def] at h
    cases cs with
    | nil => simp at h
    | cons c cs =>
      simp only [List.length_cons] at hlen ⊢
      simp only at h
      split at h
      · simp only [Option.some.injEq, Prod.mk.injEq] at h
        rw [← h.2]; omega
      · split at h
        · cases cs with
          | nil => simp at h
          | cons e cs1 =>
            simp only [List.length_cons] at hlen ⊢
            simp only at h
            split at h
            · split at h
              · rename_i h1 h2 h3 h4 rest2
                split at h
                · simp at h
                · simp only [Option.map_eq_some', Prod.exists] at h
                  obtain ⟨u, r, hp, hr⟩ := h
                  simp only [pushUnit, Prod.mk.injEq] at hr
                  have := ih rest2 u r (by simp only [List.length_cons] at hlen; omega) hp
                  rw [← hr.2]
                  simp only [List.length_cons]
                  omega
              · simp at h
            · split at h
              · simp only [Option.map_eq_some', Prod.exists] at h
                obtain ⟨u, r, hp, hr⟩ := h
                simp only [pushUnit, Prod.mk.injEq] at hr
                have := ih cs1 u r (by omega) hp
                rw [← hr.2]; omega
              · simp at h
        · split at h
          · simp at h
          · simp only [Option.map_eq_some', Prod.exists] at h
            obtain ⟨u, r, hp, hr⟩ := h
            simp only [pushUnit, Prod.mk.injEq] at hr
            have := ih cs u r (by omega) hp
            rw [← hr.2]; omega

theorem parseString_length (cs : List Char) (s : String) (rest : List Char)
    (h : parseString cs = some (s, rest)) : rest.length < cs.length := by
  simp only [parseString] at h
  split at h
  · rename_i units r hp
    simp only [Option.some.injEq, Prod.mk.injEq] at h
    rw [← h.2]
    exact parseStringBody_length cs.length cs units r (le_refl _) hp
  · simp at h

theorem spanDigits_length (cs : List Char) : (spanDigits cs).2.length ≤ cs.length := by
  induction cs with
  | nil => simp [spanDigits]
  | cons c cs ih =>
    simp only [spanDigits]
    split
    · simp only [List.length_cons]; omega
    · simp

theorem parseFrac_length (cs : List Char) : (parseFrac cs).2.length ≤ cs.length := by
  match cs with
  | [] => simp [parseFrac]
  | [c] => simp [parseFrac]
  | p :: d :: rest =>
    simp only [parseFrac]
    split
    · have := spanDigits_length rest
      simp only [List.length_cons]; omega
    · simp

theorem parseExp_length (cs : List Char) : (parseExp cs).2.length ≤ cs.length := by
  match cs with
  | [] => simp [parseExp]
  | [c] => simp [parseExp]
  | e :: s :: rest =>
    have hs := spanDigits_length rest
    simp only [parseExp]
    split
    · split
      · simp only [List.length_cons]; omega
      · split
        · split
          · simp
          · rename_i d ds rest1 heq
            have : rest1 = (spanDigits rest).2 := by rw [heq]
            rw [this]
            simp only [List.length_cons]; omega
        · simp
    · simp

theorem parseIntPart_length (cs ds rest : List Char)
    (h : parseIntPart cs = some (ds, rest)) : rest.length < cs.length := by
  cases cs with
  | nil => simp [parseIntPart] at h
  | cons c cs =>
    simp only [parseIntPart] at h
    split at h
    · simp only [Option.some.injEq, Prod.mk.injEq] at h
      rw [← h.2]; simp
    · split at h
      · simp only [Option.some.injEq, Prod.mk.injEq] at h
        rw [← h.2]
        have := spanDigits_length cs
        simp only [List.length_cons]; omega
      · simp at h

theorem parseNumber_length (cs : List Char) (v : JSValue) (rest : List Char)
    (h : parseNumber cs = some (v, rest)) : rest.length < cs.length := by
  simp only [parseNumber] at h
  split at h
  · simp at h
  · rename_i ds r1 hint
    simp only [Option.some.injEq, Prod.mk.injEq] at h
    rw [← h.2]
    have h1 := parseIntPart_length _ ds r1 hint
    have h2 := parseFrac_length r1
    have h3 := parseExp_length (parseFrac r1).2
    have h4 : (if decide (cs.head? = some '-') = true then cs.tail else cs).length
        ≤ cs.length := by
      split
      · simp
      · exact le_refl _
    omega

theorem skipWs_cons_length (cs rest : List Char) (c : Char) (h : skipWs cs = c :: rest) :
    rest.length + 1 ≤ cs.length := by
  have := skipWs_length cs
  rw [h] at this
  simpa using this

theorem parseValue_plain (f : Nat) (cs rest : List Char) (c : Char)
    (hs : skipWs cs = c :: rest) (h1 : c ≠ '"') (h2 : c ≠ '[') (h3 : c ≠ '{') :
    parseValue (f + 1) cs = parseLiteral c rest := by
  rw [parseValue]
  simp only [hs, h1, h2, h3, if_false]

theorem parseLiteral_length (rest out : List Char) (c : Char) (v : JSValue)
    (h : parseLiteral c rest = some (v, out)) : out.length < rest.length + 1 := by
  unfold parseLiteral at h
  split at h
  · split at h
    · simp only [Option.some.injEq, Prod.mk.injEq] at h
      rw [← h.2]; simp only [List.length_cons]; omega
    · simp at h
  · split at h
    · split at h
      · simp only [Option.some.injEq, Prod.mk.injEq] at h
        rw [← h.2]; simp only [List.length_cons]; omega
      · simp at h
    · split at h
      · split at h
        · simp only [Option.some.injEq, Prod.mk.injEq] at h
          rw [← h.2]; simp only [List.length_cons]; omega
        · simp at h
      · have := parseNumber_length _ v out h
        simpa using this

/-- A successful parse consumes input, and succeeds with the same result on any
fuel that is at least the number of characters it consumed. -/
theorem parse_fuel_enough (f : Nat) :
    (∀ cs v rest, parseValue f cs = some (v, rest) →
      rest.length < cs.length ∧
      ∀ g, cs.length - rest.length ≤ g → parseValue g cs = some (v, rest)) ∧
    (∀ cs xs rest, parseItems f cs = some (xs, rest) →
      rest.length < cs.length ∧
      ∀ g, cs.length - rest.length ≤ g → parseItems g cs = some (xs, rest)) ∧
    (∀ cs acc fs rest, parseMembers f cs acc = some (fs, rest) →
      rest.length < cs.length ∧
      ∀ g, cs.length - rest.length ≤ g → parseMembers g cs acc = some (fs, rest)) := by
  induction f with
  | zero =>
    refine ⟨?_, ?_, ?_⟩
    · intro cs v rest h; simp [parseValue] at h
    · intro cs xs rest h; simp [parseItems] at h
    · intro cs acc fs rest h; simp [parseMembers] at h
  | succ f ih =>
    obtain ⟨ihV, ihI, ihM⟩ := ih
    refine ⟨?_, ?_, ?_⟩
    · intro cs v out h
      cases hs : skipWs cs with
      | nil => rw [parseValue] at h; simp [hs] at h
      | cons c rest =>
        have hl := skipWs_cons_length cs rest c hs
        by_cases h1 : c = '"'
        · -- a string
          have hstep : ∀ k, parseValue (k + 1) cs =
              match parseString rest with
              | some (s, r) => some (.str s, r)
              | none => none := by
            intro k; rw [parseValue]; simp only [hs, h1, if_true]
          rw [hstep] at h
          have hlen : out.length < cs.length := by
            split at h
            · rename_i s r hp
              simp only [Option.some.injEq, Prod.mk.injEq] at h
              have := parseString_length rest s r hp
              rw [← h.2]; omega
            · simp at h
          refine ⟨hlen, ?_⟩
          intro g hg
          obtain ⟨k, rfl⟩ : ∃ k, g = k + 1 := ⟨g - 1, by omega⟩
          rw [hstep]; exact h
        by_cases h2 : c = '['
        · have hstep : ∀ k, parseValue (k + 1) cs =
              match skipWs rest with
              | [] => none
              | d :: rest1 =>
                if d = ']' then some (.arr [], rest1)
                else
                  match parseItems k rest with
                  | some (xs, r) => some (.arr xs, r)
                  | none => none := by
            intro k; rw [parseValue]
            simp only [hs, h2, show ¬ ('[' = '"') from by decide, if_false, if_true]
          rw [hstep] at h
          cases hs2 : skipWs rest with
          | nil => simp [hs2] at h
          | cons d rest1 =>
            have hl2 := skipWs_cons_length rest rest1 d hs2
            simp only [hs2] at h
            by_cases hd : d = ']'
            · simp only [hd, if_true, Option.some.injEq, Prod.mk.injEq] at h
              refine ⟨by rw [← h.2]; omega, ?_⟩
              intro g hg
              obtain ⟨k, rfl⟩ : ∃ k, g = k + 1 := ⟨g - 1, by rw [← h.2] at hg; omega⟩
              rw [hstep]; simp only [hs2, hd, if_true, h.1, h.2]
            · simp only [hd, if_false] at h
              cases hI : parseItems f rest with
              | none => simp [hI] at h
              | some p =>
                obtain ⟨xs, r⟩ := p
                simp only [hI, Option.some.injEq, Prod.mk.injEq] at h
                obtain ⟨hI1, hI2⟩ := ihI rest xs r hI
                refine ⟨by rw [← h.2]; omega, ?_⟩
                intro g hg
                obtain ⟨k, rfl⟩ : ∃ k, g = k + 1 := ⟨g - 1, by rw [← h.2] at hg; omega⟩
                rw [hstep]
                simp only [hs2, hd, if_false, hI2 k (by rw [← h.2] at hg; omega), h.1, h.2]
        by_cases h3 : c = '{'
        · have hstep : ∀ k, parseValue (k + 1) cs =
              match skipWs rest with
              | [] => none
              | d :: rest1 =>
                if d = '}' then some (.obj [], rest1)
                else
                  match parseMembers k rest [] with
                  | some (fs, r) => some (.obj fs, r)
                  | none => none := by
            intro k; rw [parseValue]
            simp only [hs, h3, show ¬ ('{' = '"') from by decide,
              show ¬ ('{' = '[') from by decide, if_false, if_true]
          rw [hstep] at h
          cases hs2 : skipWs rest with
          | nil => simp [hs2] at h
          | cons d rest1 =>
            have hl2 := skipWs_cons_length rest rest1 d hs2
            simp only [hs2] at h
            by_cases hd : d = '}'
            · simp only [hd, if_true, Option.some.injEq, Prod.mk.injEq] at h
              refine ⟨by rw [← h.2]; omega, ?_⟩
              intro g hg
              obtain ⟨k, rfl⟩ : ∃ k, g = k + 1 := ⟨g - 1, by rw [← h.2] at hg; omega⟩
              rw [hstep]; simp only [hs2, hd, if_true, h.1, h.2]
            · simp only [hd, if_false] at h
              cases hM : parseMembers f rest [] with
              | none => simp [hM] at h
              | some p =>
                obtain ⟨fs, r⟩ := p
                simp only [hM, Option.some.injEq, Prod.mk.injEq] at h
                obtain ⟨hM1, hM2⟩ := ihM rest [] fs r hM
                refine ⟨by rw [← h.2]; omega, ?_⟩
                intro g hg
                obtain ⟨k, rfl⟩ : ∃ k, g = k + 1 := ⟨g - 1, by rw [← h.2] at hg; omega⟩
                rw [hstep]
                simp only [hs2, hd, if_false, hM2 k (by rw [← h.2] at hg; omega), h.1, h.2]
        · rw [parseValue_plain f cs rest c hs h1 h2 h3] at h
          have hlen := parseLiteral_length rest out c v h
          refine ⟨by omega, ?_⟩
          intro g hg
          obtain ⟨k, rfl⟩ : ∃ k, g = k + 1 := ⟨g - 1, by omega⟩
          rw [parseValue_plain k cs rest c hs h1 h2 h3]; exact h
    · intro cs xs out h
      rw [parseItems] at h
      cases hV : parseValue f cs with
      | none => simp [hV] at h
      | some p =>
        obtain ⟨v, r1⟩ := p
        obtain ⟨hV1, hV2⟩ := ihV cs v r1 hV
        simp only [hV] at h
        cases hs : skipWs r1 with
        | nil => simp [hs] at h
        | cons d r2 =>
          have hl := skipWs_cons_length r1 r2 d hs
          simp only [hs] at h
          by_cases hd : d = ','
          · simp only [hd, if_true] at h
            cases hI : parseItems f r2 with
            | none => simp [hI] at h
            | some q =>
              obtain ⟨ys, r⟩ := q
              simp only [hI, Option.some.injEq, Prod.mk.injEq] at h
              obtain ⟨hI1, hI2⟩ := ihI r2 ys r hI
              refine ⟨by rw [← h.2]; omega, ?_⟩
              intro g hg
              rw [← h.2] at hg
              obtain ⟨k, rfl⟩ : ∃ k, g = k + 1 := ⟨g - 1, by omega⟩
              rw [parseItems]
              simp only [hV2 k (by omega), hs, hd, if_true, hI2 k (by omega), h.1, h.2]
          · simp only [hd, if_false] at h
            by_cases hd2 : d = ']'
            · simp only [hd2, if_true, Option.some.injEq, Prod.mk.injEq] at h
              refine ⟨by rw [← h.2]; omega, ?_⟩
              intro g hg
              rw [← h.2] at hg
              obtain ⟨k, rfl⟩ : ∃ k, g = k + 1 := ⟨g - 1, by omega⟩
              rw [parseItems]
              simp only [hV2 k (by omega), hs, hd2, if_true, h.1, h.2]
              simp
            · simp [hd2] at h
    · intro cs acc fs out h
      rw [parseMembers] at h
      cases hs : skipWs cs with
      | nil => simp [hs] at h
      | cons q rest =>
        have hl := skipWs_cons_length cs rest q hs
        simp only [hs] at h
        by_cases hq : q = '"'
        · simp only [hq, if_true] at h
          cases hk : parseString rest with
          | none => simp [hk] at h
          | some p =>
            obtain ⟨key, rest1⟩ := p
            have hkl := parseString_length rest key rest1 hk
            simp only [hk] at h
            cases hs1 : skipWs rest1 with
            | nil => simp [hs1] at h
            | cons c rest2 =>
              have hl1 := skipWs_cons_length rest1 rest2 c hs1
              simp only [hs1] at h
              by_cases hc : c = ':'
              · simp only [hc, if_true] at h
                cases hV : parseValue f rest2 with
                | none => simp [hV] at h
                | some p2 =>
                  obtain ⟨v, rest3⟩ := p2
                  obtain ⟨hV1, hV2⟩ := ihV rest2 v rest3 hV
                  simp only [hV] at h
                  cases hs3 : skipWs rest3 with
                  | nil => simp [hs3] at h
                  | cons d rest4 =>
                    have hl3 := skipWs_cons_length rest3 rest4 d hs3
                    simp only [hs3] at h
                    by_cases hd : d = ','
                    · simp only [hd, if_true] at h
                      obtain ⟨hM1, hM2⟩ := ihM rest4 (setField acc key v) fs out h
                      refine ⟨by omega, ?_⟩
                      intro g hg
                      obtain ⟨k, rfl⟩ : ∃ k, g = k + 1 := ⟨g - 1, by omega⟩
                      rw [parseMembers]
                      simp only [hs, hq, if_true, hk, hs1, hc, hV2 k (by omega), hs3, hd,
                        hM2 k (by omega)]
                    · simp only [hd, if_false] at h
                      by_cases hd2 : d = '}'
                      · simp only [hd2, if_true, Option.some.injEq, Prod.mk.injEq] at h
                        refine ⟨by rw [← h.2]; omega, ?_⟩
                        intro g hg
                        rw [← h.2] at hg
                        obtain ⟨k, rfl⟩ : ∃ k, g = k + 1 := ⟨g - 1, by omega⟩
                        rw [parseMembers]
                        simp only [hs, hq, if_true, hk, hs1, hc, hV2 k (by omega), hs3, hd2,
                          h.1, h.2]
                        simp
                      · simp [hd2] at h
              · simp [hc] at h
        · simp [hq] at h

/-- `JSON.parse` fails on a text only if no amount of fuel parses it: whenever
some fuel reads one value followed by white space alone, `JSON.parse` returns
that value. -/
theorem JSON.parse_complete (text : String) (f : Nat) (v : JSValue) (rest : List Char)
    (h : parseValue f text.data = some (v, rest)) (hrest : skipWs rest = []) :
    JSON.parse text = .ok v := by
  obtain ⟨h1, h2⟩ := (parse_fuel_enough f).1 text.data v rest h
  simp only [JSON.parse, h2 (2 * text.data.length + 2) (by omega), hrest, if_true]

theorem lookupField_eq_none (k : String) (fs : List (String × JSValue))
    (h : k ∉ fs.map Prod.fst) : lookupField k fs = none := by
  induction fs with
  | nil => rfl
  | cons f fs ih =>
    obtain ⟨kf, vf⟩ := f
    simp only [List.map_cons, List.mem_cons, not_or] at h
    simp [lookupField, Ne.symm h.1, ih h.2]

/-- Defining fresh keys that are not array indices one after the other appends
them in order. -/
theorem foldl_setField_fresh (fs : List (String × JSValue)) :
    ∀ acc : List (String × JSValue), (∀ kv ∈ fs, arrayIndex? kv.1 = none) →
      ((acc ++ fs).map Prod.fst).Nodup →
      fs.foldl (fun acc kv => setField acc kv.1 kv.2) acc = acc ++ fs := by
  induction fs with
  | nil => intro acc _ _; simp
  | cons f fs ih =>
    intro acc hidx hnd
    obtain ⟨k, v⟩ := f
    have hk : k ∉ acc.map Prod.fst := by
      intro hmem
      simp only [List.map_append, List.map_cons] at hnd
      rw [List.nodup_append] at hnd
      exact hnd.2.2 hmem (List.mem_cons_self _ _)
    have hset : setField acc k v = acc ++ [(k, v)] := by
      simp [setField, lookupField_eq_none k acc hk, hidx (k, v) (List.mem_cons_self _ _)]
    simp only [List.foldl_cons, hset]
    rw [ih (acc ++ [(k, v)]) (fun kv hkv => hidx kv (List.mem_cons_of_mem _ hkv))
      (by simpa using hnd)]
    simp

theorem isCanonicalList_of_strings (xs : List JSValue) (h : xs.all JSValue.isStr = true) :
    isCanonicalList xs = true := by
  induction xs with
  | nil => rfl
  | cons x xs ih =>
    simp only [List.all_cons, Bool.and_eq_true] at h
    have hx : isCanonical x = true := by
      cases x <;> first | rfl | exact absurd h.1 (by simp [JSValue.isStr])
    simp only [isCanonicalList, Bool.and_eq_true]
    exact ⟨hx, ih h.2⟩

theorem isRecordField_canonical (k : String) (v : JSValue) (h : isRecordField k v = true) :
    arrayIndex? k = none ∧ isCanonical v = true := by
  unfold isRecordField at h
  split at h
  · rename_i hk
    subst hk
    refine ⟨by decide, ?_⟩
    split at h
    · simp [isCanonical]
    · exact absurd h (by simp)
  · split at h
    · rename_i hk
      subst hk
      refine ⟨by decide, ?_⟩
      split at h
      · simp only [isCanonical]
        exact isCanonicalList_of_strings _ h
      · exact absurd h (by simp)
    · split at h
      · rename_i hk
        constructor
        · rcases hk with hk | hk | hk | hk | hk <;> subst hk <;> decide
        · cases v <;> simp [JSValue.isStr] at h
          simp [isCanonical]
      · exact absurd h (by simp)

theorem isCanonicalFields_of_all (fs : List (String × JSValue))
    (h : ∀ kv ∈ fs, isCanonical kv.2 = true) : isCanonicalFields fs = true := by
  induction fs with
  | nil => rfl
  | cons f fs ih =>
    obtain ⟨k, v⟩ := f
    simp only [isCanonicalFields, Bool.and_eq_true]
    exact ⟨h (k, v) (List.mem_cons_self _ _), ih (fun kv hkv => h kv (List.mem_cons_of_mem _ hkv))⟩

theorem isValidRecord_canonical (r : JSValue) (h : isValidRecord r = true) :
    isCanonical r = true := by
  cases r with
  | obj fs =>
    simp only [isValidRecord, Bool.and_eq_true, decide_eq_true_eq, List.all_eq_true] at h
    obtain ⟨⟨hnd, hfields⟩, _⟩ := h
    simp only [isCanonical, Bool.and_eq_true, decide_eq_true_eq]
    constructor
    · have := foldl_setField_fresh fs []
        (fun kv hkv => (isRecordField_canonical kv.1 kv.2 (hfields kv hkv)).1)
        (by simpa using hnd)
      simpa using this
    · exact isCanonicalFields_of_all fs
        (fun kv hkv => (isRecordField_canonical kv.1 kv.2 (hfields kv hkv)).2)
  | _ => simp [isValidRecord] at h

theorem isCanonicalList_of_records (s : List JSValue)
    (h : ∀ r ∈ s, isValidRecord r = true) : isCanonicalList s = true := by
  induction s with
  | nil => rfl
  | cons r rs ih =>
    simp only [isCanonicalList, Bool.and_eq_true]
    exact ⟨isValidRecord_canonical r (h r (List.mem_cons_self _ _)),
      ih (fun x hx => h x (List.mem_cons_of_mem _ hx))⟩

theorem stringify_ne_empty (xs : List JSValue) : JSON.stringify (.arr xs) ≠ "" := by
  intro h
  have := congrArg String.data h
  simp [JSON.stringify, stringifyValue] at this

/-! ## C3 -/

/-- C3: for every sequence `s` of at most fifty valid analysis records,
`JSON.parse` of `JSON.stringify(s)` is `s`; and so `loadHistory`, run on the slot
that `saveToHistory` wrote while the history stayed within fifty valid records,
gives back the history `saveToHistory` left, record for record and field for
field. -/
theorem history_round_trip (s : List JSValue) (hlen : s.length ≤ 50)
    (hvalid : ∀ r ∈ s, isValidRecord r = true) :
    JSON.parse (JSON.stringify (.arr s)) = .ok (.arr s) ∧
    ∀ (st other : AppState) (r : JSValue) (items : List JSValue),
      st.analysisHistory = .arr items → s = r :: items →
      (saveToHistory st r).state.analysisHistory = .arr s ∧
      (loadHistory { other with storage := (saveToHistory st r).state.storage }).analysisHistory
        = .arr s := by
  have hparse : JSON.parse (JSON.stringify (.arr s)) = .ok (.arr s) :=
    parse_stringify (.arr s) (by simp only [isCanonical]; exact isCanonicalList_of_records s hvalid)
  refine ⟨hparse, ?_⟩
  intro st other r items hst hs
  have htake : (r :: items).take 50 = s := by
    rw [← hs, List.take_of_length_le hlen]
  rw [saveToHistory_arr st r items hst, htake]
  refine ⟨rfl, ?_⟩
  simp only [loadHistory, stringify_ne_empty, if_false, hparse]

/-- The theorem above at the history of one record that a successful analysis
leaves. -/
theorem history_round_trip_witness :
    [analysisRecord
        (.obj [("score", .int 85), ("risk_level", .str "HIGH"),
          ("analysis_summary", .str "Suspicious \"login\" link"),
          ("triggered_rules", .arr [.str "ip-url", .str "urgency"])])
        "url" "http://192.0.2.1/login" "2024-05-01T10:00:00.000Z"].length ≤ 50 ∧
    (∀ r ∈ [analysisRecord
        (.obj [("score", .int 85), ("risk_level", .str "HIGH"),
          ("analysis_summary", .str "Suspicious \"login\" link"),
          ("triggered_rules", .arr [.str "ip-url", .str "urgency"])])
        "url" "http://192.0.2.1/login" "2024-05-01T10:00:00.000Z"],
      isValidRecord r = true) ∧
    JSON.parse (JSON.stringify (.arr [analysisRecord
        (.obj [("score", .int 85), ("risk_level", .str "HIGH"),
          ("analysis_summary", .str "Suspicious \"login\" link"),
          ("triggered_rules", .arr [.str "ip-url", .str "urgency"])])
        "url" "http://192.0.2.1/login" "2024-05-01T10:00:00.000Z"]))
      = .ok (.arr [analysisRecord
        (.obj [("score", .int 85), ("risk_level", .str "HIGH"),
          ("analysis_summary", .str "Suspicious \"login\" link"),
          ("triggered_rules", .arr [.str "ip-url", .str "urgency"])])
        "url" "http://192.0.2.1/login" "2024-05-01T10:00:00.000Z"]) :=
  ⟨by decide, by decide,
   (history_round_trip _ (by decide) (by decide)).1⟩

theorem performAnalysis_currentAnalysis (host : Host) (st : AppState)
    (inputType inputText now body : String) (result : JSValue)
    (h : JSON.parse body = .ok result) :
    (performAnalysis host st inputType inputText now (.response true body)).currentAnalysis =
      analysisRecord result inputType inputText now := by
  rw [performAnalysis_eq]
  have hs : SameShell
      (analysisBody host (showLoading st) ⟨inputType, inputText⟩ now (.response true body)).state
      { showLoading st with currentAnalysis := analysisRecord result inputType inputText now } := by
    simp only [analysisBody, h]
    apply andThen_shell _ _ _ _ updateHistoryDisplay_shell
    apply andThen_shell _ _ _ _ (fun s => saveToHistory_shell s _)
    exact displayResults_shell _ _ _
  cases hthrown :
    (analysisBody host (showLoading st) ⟨inputType, inputText⟩ now (.response true body)).thrown
  <;> simp only [hideLoading, showError] <;> exact hs.1

/-! ## C4 -/

/-- C4, as the code has it: the record `performAnalysis` builds from a successful
response carries the response's own `score` and `risk_level` properties
unchanged, and has no `risk_level` when the response has none; nothing is derived
from the score. -/
theorem record_keeps_response_risk_level (host : Host) (st : AppState)
    (inputType inputText now body : String) (fs : List (String × JSValue))
    (h : JSON.parse body = .ok (.obj fs)) :
    property (performAnalysis host st inputType inputText now
        (.response true body)).currentAnalysis "risk_level" = lookupField "risk_level" fs ∧
    property (performAnalysis host st inputType inputText now
        (.response true body)).currentAnalysis "score" = lookupField "score" fs := by
  rw [performAnalysis_currentAnalysis host st inputType inputText now body _ h]
  exact ⟨property_analysisRecord fs _ _ _ _ (by decide) (by decide) (by decide),
    property_analysisRecord fs _ _ _ _ (by decide) (by decide) (by decide)⟩

/-- The theorem above at a response of score 85 and level `HIGH`. -/
theorem record_keeps_response_risk_level_witness :
    JSON.parse "\x7b\"score\":85,\"risk_level\":\"HIGH\"\x7d"
      = .ok (.obj [("score", .int 85), ("risk_level", .str "HIGH")]) ∧
    property (performAnalysis Host.strict (initialState none "url") "url" "http://a.b/" "t"
        (.response true "\x7b\"score\":85,\"risk_level\":\"HIGH\"\x7d")).currentAnalysis
        "risk_level" = some (.str "HIGH") :=
  ⟨by decide,
   (record_keeps_response_risk_level Host.strict (initialState none "url") "url" "http://a.b/"
      "t" "\x7b\"score\":85,\"risk_level\":\"HIGH\"\x7d"
      [("score", .int 85), ("risk_level", .str "HIGH")] (by decide)).1⟩

/-- C4 as stated fails: a response with score 85 and level `LOW` gives a record
of level `LOW`, where the thresholds give `HIGH`; a response with no level gives
a record with none. -/
theorem record_risk_level_not_derived :
    property (performAnalysis Host.strict (initialState none "url") "url" "http://a.b/" "t"
        (.response true
          "\x7b\"score\":85,\"risk_level\":\"LOW\",\"analysis_summary\":\"s\",\"triggered_rules\":[]\x7d")).currentAnalysis
        "risk_level" = some (.str "LOW") ∧
    riskLevelOf 85 = "HIGH" ∧
    property (performAnalysis Host.strict (initialState none "url") "url" "http://a.b/" "t"
        (.response true "\x7b\"score\":85\x7d")).currentAnalysis "risk_level" = none := by
  decide

/-! ## C5 -/

theorem handleFormSubmit_pending (host : Host) (st : AppState) :
    (handleFormSubmit host st).pending =
      if trim st.userInput = "" ∨
          (st.inputType = "url" ∧ isValidUrl host (trim st.userInput) = false)
      then st.pending else st.pending ++ [⟨st.inputType, trim st.userInput⟩] := by
  unfold handleFormSubmit
  by_cases h1 : trim st.userInput = ""
  · simp [h1, showError]
  · by_cases h2 : st.inputType = "url" ∧ isValidUrl host (trim st.userInput) = false
    · simp [h1, h2, showError]
    · simp only [h1, h2, if_false, false_or]
      simp [performAnalysisStart]

theorem handleFormSubmit_accepts (host : Host) (st : AppState)
    (h1 : trim st.userInput ≠ "")
    (h2 : ¬ (st.inputType = "url" ∧ isValidUrl host (trim st.userInput) = false)) :
    handleFormSubmit host st = performAnalysisStart st st.inputType (trim st.userInput) := by
  unfold handleFormSubmit
  simp only [h1, h2, if_false]

/-- C5, as the code has it: `handleFormSubmit` rejects (shows an error and issues
no request) exactly when the text is empty after trimming, or the type is `url`
and `new URL(text)` throws; otherwise it issues the request.  `new URL` needs a
scheme and no host: `mailto:a` is accepted.  The four examples of the claim come
out as it says. -/
theorem validation_rejects_iff (host : Host) (st : AppState) :
    ((handleFormSubmit host st).pending = st.pending ∧
        (∃ n, (handleFormSubmit host st).notices = st.notices ++ [n]) ↔
      trim st.userInput = "" ∨
        (st.inputType = "url" ∧ isValidUrl host (trim st.userInput) = false)) ∧
    ((handleFormSubmit host st).pending = st.pending ++ [⟨st.inputType, trim st.userInput⟩] ∧
        (handleFormSubmit host st).notices = st.notices ↔
      ¬ (trim st.userInput = "" ∨
        (st.inputType = "url" ∧ isValidUrl host (trim st.userInput) = false))) ∧
    (handleFormSubmit host { st with inputType := "url", userInput := "not a url" }).pending
      = st.pending ∧
    (handleFormSubmit host { st with inputType := "email", userInput := "   " }).pending
      = st.pending ∧
    (handleFormSubmit host { st with inputType := "url", userInput := "https://a.b/c" }).pending
      = st.pending ++ [⟨"url", "https://a.b/c"⟩] ∧
    (handleFormSubmit host { st with inputType := "email", userInput := "hi" }).pending
      = st.pending ++ [⟨"email", "hi"⟩] ∧
    (handleFormSubmit host { st with inputType := "url", userInput := "mailto:a" }).pending
      = st.pending ++ [⟨"url", "mailto:a"⟩] := by
  refine ⟨?_, ?_, ?_, ?_, ?_, ?_, ?_⟩
  · by_cases h : trim st.userInput = "" ∨
        (st.inputType = "url" ∧ isValidUrl host (trim st.userInput) = false)
    · simp only [h, iff_true]
      refine ⟨by rw [handleFormSubmit_pending, if_pos h], ?_⟩
      unfold handleFormSubmit
      by_cases h1 : trim st.userInput = ""
      · exact ⟨.text "Please enter content to analyze", by simp [h1, showError]⟩
      · have h2 := h.resolve_left h1
        exact ⟨.text "Please enter a valid URL", by simp [h1, h2, showError]⟩
    · simp only [h, iff_false, not_and]
      intro hp
      rw [handleFormSubmit_pending, if_neg h] at hp
      simp at hp
  · by_cases h : trim st.userInput = "" ∨
        (st.inputType = "url" ∧ isValidUrl host (trim st.userInput) = false)
    · simp only [h, not_true_eq_false, iff_false, not_and]
      intro hp
      rw [handleFormSubmit_pending, if_pos h] at hp
      simp at hp
    · simp only [h, not_false_eq_true, iff_true]
      refine ⟨by rw [handleFormSubmit_pending, if_neg h], ?_⟩
      rw [handleFormSubmit_accepts host st (fun e => h (Or.inl e)) (fun e => h (Or.inr e))]
      rfl
  · rw [handleFormSubmit_pending]
    have : isValidUrl host (trim "not a url") = false := rfl
    simp [this]
  · rw [handleFormSubmit_pending]
    have : trim "   " = "" := by decide
    simp [this]
  · rw [handleFormSubmit_pending]
    have h1 : trim "https://a.b/c" = "https://a.b/c" := by decide
    have h2 : isValidUrl host "https://a.b/c" = true := rfl
    simp [h1, h2]
  · rw [handleFormSubmit_pending]
    have h1 : trim "hi" = "hi" := by decide
    simp [h1]
  · rw [handleFormSubmit_pending]
    have h1 : trim "mailto:a" = "mailto:a" := by decide
    have h2 : isValidUrl host "mailto:a" = true := rfl
    simp [h1, h2]

/-- C5 as stated fails: `mailto:a` has a scheme and no host, and
`handleFormSubmit` accepts it as a URL and issues the request. -/
theorem url_without_host_accepted :
    urlHasHost "mailto:a" = false ∧
    isValidUrl Host.strict "mailto:a" = true ∧
    (handleFormSubmit Host.strict
        { initialState none "url" with userInput := "mailto:a" }).pending
      = [⟨"url", "mailto:a"⟩] ∧
    (handleFormSubmit Host.strict
        { initialState none "url" with userInput := "mailto:a" }).notices = [] := by
  decide

/-! ## C6 -/

theorem loadHistory_shell (st : AppState) : SameShell (loadHistory st) st := by
  unfold loadHistory
  split
  · exact SameShell.refl st
  · split
    · exact SameShell.refl st
    · split <;> exact SameShell.refl st

theorem startup_shell (st : AppState) : SameShell (startup st).state st :=
  (updateHistoryDisplay_shell _).trans (loadHistory_shell st)

theorem clearHistory_shell (st : AppState) (confirmed : Bool) :
    SameShell (clearHistory st confirmed).state st := by
  unfold clearHistory
  split
  · exact (updateHistoryDisplay_shell _).trans (SameShell.refl st)
  · exact SameShell.refl st

theorem performAnalysisResume_pending (host : Host) (st : AppState) (i : Nat) (now : String)
    (outcome : FetchOutcome) (req : Request) (h : st.pending.get? i = some req) :
    (performAnalysisResume host st i now outcome).pending = st.pending.eraseIdx i ∧
    (performAnalysisResume host st i now outcome).analyzeBtnDisabled = false := by
  simp only [performAnalysisResume, h]
  obtain ⟨current, hs⟩ :=
    analysisBody_shell host { st with pending := st.pending.eraseIdx i } req now outcome
  constructor
  · split <;> simp only [hideLoading, showError] <;> exact hs.2.2.2.2.2.2.2.1
  · rfl

theorem displayResults_data (host : Host) (a b : AppState) (x : JSValue)
    (h : SameData a b) :
    (displayResults host a x).thrown = (displayResults host b x).thrown ∧
    SameData (displayResults host a x).state (displayResults host b x).state := by
  unfold displayResults
  split <;> exact ⟨rfl, h⟩

theorem saveToHistory_data (a b : AppState) (x : JSValue) (h : SameData a b) :
    (saveToHistory a x).thrown = (saveToHistory b x).thrown ∧
    SameData (saveToHistory a x).state (saveToHistory b x).state := by
  unfold saveToHistory
  rw [h.2.1]
  split
  · exact ⟨rfl, h.1, rfl, rfl, h.2.2.2⟩
  · exact ⟨rfl, h⟩

theorem renderHistory_data (items : List JSValue) :
    ∀ a b : AppState, SameData a b →
      (renderHistory a items).thrown = (renderHistory b items).thrown ∧
      SameData (renderHistory a items).state (renderHistory b items).state := by
  induction items with
  | nil => intro a b h; exact ⟨rfl, h⟩
  | cons item items ih =>
    intro a b h
    rw [renderHistory, renderHistory]
    split
    · exact ⟨rfl, h⟩
    · exact ih _ _ ⟨h.1, h.2.1, h.2.2.1, by rw [h.2.2.2]⟩

theorem updateHistoryDisplay_data (a b : AppState) (h : SameData a b) :
    (updateHistoryDisplay a).thrown = (updateHistoryDisplay b).thrown ∧
    SameData (updateHistoryDisplay a).state (updateHistoryDisplay b).state := by
  unfold updateHistoryDisplay
  rw [h.2.1]
  split
  · exact ⟨rfl, h⟩
  · split
    · exact ⟨rfl, h.1, rfl, h.2.2.1, rfl⟩
    · split
      · exact renderHistory_data _ _ _ ⟨h.1, rfl, h.2.2.1, rfl⟩
      · exact ⟨rfl, h.1, rfl, h.2.2.1, rfl⟩

theorem andThen_data (oa ob : Outcome) (na nb : AppState → Outcome)
    (h0 : oa.thrown = ob.thrown) (h1 : SameData oa.state ob.state)
    (h2 : ∀ s t, SameData s t →
      (na s).thrown = (nb t).thrown ∧ SameData (na s).state (nb t).state) :
    (oa.andThen na).thrown = (ob.andThen nb).thrown ∧
    SameData (oa.andThen na).state (ob.andThen nb).state := by
  unfold Outcome.andThen
  rw [h0]
  split
  · exact h2 _ _ h1
  · rename_i e he
    exact ⟨by rw [h0, he], h1⟩

/-- What a settling request throws, makes current, stores and lists depends on
the state only through the two variables, the slot and the rows. -/
theorem analysisBody_data (host : Host) (a b : AppState) (req : Request) (now : String)
    (outcome : FetchOutcome) (h : SameData a b) :
    (analysisBody host a req now outcome).thrown = (analysisBody host b req now outcome).thrown ∧
    SameData (analysisBody host a req now outcome).state
      (analysisBody host b req now outcome).state := by
  unfold analysisBody
  split
  · exact ⟨rfl, h⟩
  · split <;> exact ⟨rfl, h⟩
  · split
    · exact ⟨rfl, h⟩
    · rename_i result _
      have h1 := displayResults_data host
        { a with currentAnalysis := analysisRecord result req.inputType req.inputText now }
        { b with currentAnalysis := analysisRecord result req.inputType req.inputText now }
        (analysisRecord result req.inputType req.inputText now)
        ⟨rfl, h.2.1, h.2.2.1, h.2.2.2⟩
      have h2 := andThen_data _ _
        (fun s => saveToHistory s (analysisRecord result req.inputType req.inputText now))
        (fun s => saveToHistory s (analysisRecord result req.inputType req.inputText now))
        h1.1 h1.2 (fun s t hst => saveToHistory_data s t _ hst)
      exact andThen_data _ _ updateHistoryDisplay updateHistoryDisplay h2.1 h2.2
        (fun s t hst => updateHistoryDisplay_data s t hst)

/-- A settling request leaves two states that agree on the two variables, the
slot and the rows, and in which it is the same request, in agreement on them;
it adds the same notice to both. -/
theorem performAnalysisResume_data (host : Host) (a b : AppState) (i : Nat)
    (now : String) (outcome : FetchOutcome) (h : SameData a b)
    (hp : a.pending.get? i = b.pending.get? i) :
    SameData (performAnalysisResume host a i now outcome)
      (performAnalysisResume host b i now outcome) ∧
    (a.notices = b.notices →
      (performAnalysisResume host a i now outcome).notices
        = (performAnalysisResume host b i now outcome).notices) := by
  cases hb : b.pending.get? i with
  | none =>
    rw [hb] at hp
    simp only [performAnalysisResume, hp, hb]
    exact ⟨h, fun hn => hn⟩
  | some req =>
    rw [hb] at hp
    simp only [performAnalysisResume, hp, hb]
    have hd := analysisBody_data host { a with pending := a.pending.eraseIdx i }
      { b with pending := b.pending.eraseIdx i } req now outcome h
    obtain ⟨c1, hs1⟩ := analysisBody_shell host { a with pending := a.pending.eraseIdx i }
      req now outcome
    obtain ⟨c2, hs2⟩ := analysisBody_shell host { b with pending := b.pending.eraseIdx i }
      req now outcome
    rw [hd.1]
    constructor
    · split <;> exact hd.2
    · intro hn
      have hn2 : (analysisBody host { a with pending := a.pending.eraseIdx i }
            req now outcome).state.notices
          = (analysisBody host { b with pending := b.pending.eraseIdx i }
            req now outcome).state.notices := by
        rw [hs1.2.2.2.2.2.2.1, hs2.2.2.2.2.2.2.1]
        exact hn
      split
      · simp only [hideLoading, showError, hn2]
      · simp only [hideLoading, hn2]

/-- A submission leaves the two variables, the slot and the rows as they are,
and the requests already in flight at their positions. -/
theorem handleFormSubmit_data (host : Host) (s : AppState) (i : Nat)
    (hi : i < s.pending.length) :
    SameData (handleFormSubmit host s) s ∧
    (handleFormSubmit host s).pending.get? i = s.pending.get? i := by
  rw [handleFormSubmit_pending]
  unfold handleFormSubmit
  simp only []
  split
  · exact ⟨⟨rfl, rfl, rfl, rfl⟩, by simp [*]⟩
  · split
    · rename_i h1 h2
      exact ⟨⟨rfl, rfl, rfl, rfl⟩, by simp [h1, h2]⟩
    · rename_i h1 h2
      refine ⟨⟨rfl, rfl, rfl, rfl⟩, ?_⟩
      simp only [h1, h2, or_self, if_false]
      rw [List.get?_eq_getElem?, List.getElem?_append_left hi, ← List.get?_eq_getElem?]

/-- A click on a history row leaves the requests in flight, the analyze button,
the history, the slot, the rows, the notices and the downloads as they are. -/
theorem loadHistoryItem_frame (host : Host) (st : AppState) (item : JSValue) :
    (loadHistoryItem host st item).state.pending = st.pending ∧
    (loadHistoryItem host st item).state.analyzeBtnDisabled = st.analyzeBtnDisabled ∧
    (loadHistoryItem host st item).state.analysisHistory = st.analysisHistory ∧
    (loadHistoryItem host st item).state.storage = st.storage ∧
    (loadHistoryItem host st item).state.historyList = st.historyList ∧
    (loadHistoryItem host st item).state.notices = st.notices ∧
    (loadHistoryItem host st item).state.downloads = st.downloads := by
  unfold loadHistoryItem
  simp only []
  split
  · exact ⟨rfl, rfl, rfl, rfl, rfl, rfl, rfl⟩
  · split
    · exact ⟨rfl, rfl, rfl, rfl, rfl, rfl, rfl⟩
    · split
      · exact ⟨rfl, rfl, rfl, rfl, rfl, rfl, rfl⟩
      · split
        · exact ⟨rfl, rfl, rfl, rfl, rfl, rfl, rfl⟩
        · obtain ⟨hidden, h⟩ := displayResults_frame host
            (updateCharCount (handleInputTypeChange
              { st with currentAnalysis := item,
                        inputType := host.selectValue (textOf _),
                        userInput := host.fieldValue (fieldTextOf _) })) item
          rw [h]
          exact ⟨rfl, rfl, rfl, rfl, rfl, rfl, rfl⟩

/-- The invariant behind C6: at most one request is in flight, and the analyze
button is disabled while one is. -/
theorem step_invariant (host : Host) (st st' : AppState) (h : Step host st st')
    (hinv : st.pending.length ≤ 1 ∧ (st.analyzeBtnDisabled = false → st.pending = [])) :
    st'.pending.length ≤ 1 ∧ (st'.analyzeBtnDisabled = false → st'.pending = []) := by
  cases h with
  | edit inputType userInput => exact hinv
  | submit henabled =>
    have hp := hinv.2 henabled
    rw [handleFormSubmit_pending]
    split
    · refine ⟨hinv.1, fun _ => hp⟩
    · rename_i hc
      refine ⟨by simp [hp], ?_⟩
      intro hd
      rw [handleFormSubmit_accepts host st (fun e => hc (Or.inl e)) (fun e => hc (Or.inr e))]
        at hd
      simp [performAnalysisStart, showLoading, hideResults] at hd
  | settle i now outcome =>
    cases hget : st.pending.get? i with
    | none => simp only [performAnalysisResume, hget]; exact hinv
    | some req =>
      obtain ⟨h1, h2⟩ := performAnalysisResume_pending host st i now outcome req hget
      have hlt : i < st.pending.length := by
        rw [List.get?_eq_some] at hget
        exact hget.1
      have hempty : st.pending.eraseIdx i = [] := by
        apply List.eq_nil_of_length_eq_zero
        rw [List.length_eraseIdx]
        split <;> omega
      rw [h1, hempty]
      exact ⟨by simp, fun _ => rfl⟩
  | typeChange => exact hinv
  | input => exact hinv
  | newAnalysis defaultType => exact hinv
  | exportClick now =>
    unfold exportReport
    split <;> exact hinv
  | clear confirmed =>
    have hs := clearHistory_shell st confirmed
    rw [hs.2.2.2.2.1, hs.2.2.2.2.2.2.2.1]
    exact hinv
  | historyClick item hmem =>
    have hs := loadHistoryItem_frame host st item
    rw [hs.1, hs.2.1]
    exact hinv

/-- C6, as the code has it.  In every state the page reaches, a submission being
made through the analyze button and so only while it is enabled, at most one
request is in flight, and the button is disabled while it is: `showLoading`
disables it and `hideLoading` enables it again when the request settles.
`handleFormSubmit` itself has no busy check: a valid submission issues its
request and shows no error whatever is in flight.  A submission made while a
request is in flight does not change the outcome of that request: when it
settles, the record that becomes current, the history, the slot and the history
rows are what they are without the submission, and, the submission being valid,
so are the notices, and only the later request stays in flight. -/
theorem one_request_when_button_gates (host : Host) (st : AppState)
    (h : Reachable host st) :
    st.pending.length ≤ 1 ∧ (st.pending ≠ [] → st.analyzeBtnDisabled = true) ∧
    (∀ s : AppState, trim s.userInput ≠ "" →
      ¬ (s.inputType = "url" ∧ isValidUrl host (trim s.userInput) = false) →
      (handleFormSubmit host s).pending = s.pending ++ [⟨s.inputType, trim s.userInput⟩] ∧
      (handleFormSubmit host s).notices = s.notices) ∧
    (∀ (s : AppState) (i : Nat) (now : String) (outcome : FetchOutcome),
      i < s.pending.length →
      SameData (performAnalysisResume host (handleFormSubmit host s) i now outcome)
        (performAnalysisResume host s i now outcome) ∧
      (trim s.userInput ≠ "" →
        ¬ (s.inputType = "url" ∧ isValidUrl host (trim s.userInput) = false) →
        (performAnalysisResume host (handleFormSubmit host s) i now outcome).notices
          = (performAnalysisResume host s i now outcome).notices ∧
        (performAnalysisResume host (handleFormSubmit host s) i now outcome).pending
          = (performAnalysisResume host s i now outcome).pending ++
              [⟨s.inputType, trim s.userInput⟩])) := by
  have hinv : st.pending.length ≤ 1 ∧ (st.analyzeBtnDisabled = false → st.pending = []) := by
    induction h with
    | start storage inputType =>
      have hs := startup_shell (initialState storage inputType)
      rw [hs.2.2.2.2.1, hs.2.2.2.2.2.2.2.1]
      exact ⟨by simp [initialState], fun _ => rfl⟩
    | step _ hstep ih => exact step_invariant host _ _ hstep ih
  refine ⟨hinv.1, ?_, ?_, ?_⟩
  · intro hne
    cases hd : st.analyzeBtnDisabled with
    | true => rfl
    | false => exact absurd (hinv.2 hd) hne
  · intro s h1 h2
    rw [handleFormSubmit_accepts host s h1 h2]
    exact ⟨rfl, rfl⟩
  · intro s i now outcome hi
    obtain ⟨hd, hp⟩ := handleFormSubmit_data host s i hi
    have hr := performAnalysisResume_data host (handleFormSubmit host s) s i now outcome hd hp
    refine ⟨hr.1, ?_⟩
    intro h1 h2
    refine ⟨hr.2 (by rw [handleFormSubmit_accepts host s h1 h2]; rfl), ?_⟩
    have hget : s.pending.get? i = some (s.pending.get ⟨i, hi⟩) := List.get?_eq_get hi
    rw [(performAnalysisResume_pending host _ i now outcome _ (hp.trans hget)).1,
      (performAnalysisResume_pending host s i now outcome _ hget).1,
      handleFormSubmit_accepts host s h1 h2]
    simp only [performAnalysisStart]
    exact List.eraseIdx_append_of_lt_length hi _

/-- The theorem above at the state reached by a click on a history row, an edit
and a submission, with one request in flight; and at a second submission made by
calling the handler while a request is in flight: the record the first request
makes current is the same with and without it. -/
theorem one_request_when_button_gates_witness :
    Reachable Host.strict
      (handleFormSubmit Host.strict
        { (loadHistoryItem Host.strict
            (startup (initialState
              (some "[\x7b\"score\":85,\"risk_level\":\"HIGH\",\"input\":\"hi\",\"inputType\":\"email\"\x7d]")
              "email")).state
            (.obj [("score", .int 85), ("risk_level", .str "HIGH"), ("input", .str "hi"),
              ("inputType", .str "email")])).state with
          inputType := "email", userInput := "hello" }) ∧
    (handleFormSubmit Host.strict
        { (loadHistoryItem Host.strict
            (startup (initialState
              (some "[\x7b\"score\":85,\"risk_level\":\"HIGH\",\"input\":\"hi\",\"inputType\":\"email\"\x7d]")
              "email")).state
            (.obj [("score", .int 85), ("risk_level", .str "HIGH"), ("input", .str "hi"),
              ("inputType", .str "email")])).state with
          inputType := "email", userInput := "hello" }).pending.length ≤ 1 ∧
    (performAnalysisResume Host.strict
        (handleFormSubmit Host.strict
          { handleFormSubmit Host.strict { initialState none "email" with userInput := "first" }
            with userInput := "second" })
        0 "t" (.response true "\x7b\"score\":85,\"risk_level\":\"HIGH\"\x7d")).currentAnalysis
      = (performAnalysisResume Host.strict
        { handleFormSubmit Host.strict { initialState none "email" with userInput := "first" }
          with userInput := "second" }
        0 "t" (.response true "\x7b\"score\":85,\"risk_level\":\"HIGH\"\x7d")).currentAnalysis :=
  ⟨(Reachable.step (Reachable.step (Reachable.step (Reachable.start _ "email")
        (Step.historyClick _ _ (by decide))) (Step.edit _ "email" "hello"))
        (Step.submit _ (by decide))),
   (one_request_when_button_gates Host.strict _
      (Reachable.step (Reachable.step (Reachable.step (Reachable.start _ "email")
        (Step.historyClick _ _ (by decide))) (Step.edit _ "email" "hello"))
        (Step.submit _ (by decide)))).1,
   ((one_request_when_button_gates Host.strict _ (Reachable.start none "email")).2.2.2
      { handleFormSubmit Host.strict { initialState none "email" with userInput := "first" }
        with userInput := "second" }
      0 "t" (.response true "\x7b\"score\":85,\"risk_level\":\"HIGH\"\x7d") (by decide)).1.1⟩

/-- C6 as stated fails in its busy check: `handleFormSubmit` called while a
request is in flight shows no error and issues a second request.  The analyze
button is disabled in that state, so the call is not one made through it. -/
theorem second_submission_not_rejected :
    (handleFormSubmit Host.strict
        { initialState none "email" with userInput := "first" }).pending
      = [⟨"email", "first"⟩] ∧
    (handleFormSubmit Host.strict
        { handleFormSubmit Host.strict { initialState none "email" with userInput := "first" }
          with userInput := "second" }).pending
      = [⟨"email", "first"⟩, ⟨"email", "second"⟩] ∧
    (handleFormSubmit Host.strict
        { handleFormSubmit Host.strict { initialState none "email" with userInput := "first" }
          with userInput := "second" }).notices = [] := by
  decide

/-! ## C7 -/

/-- C7 fails on the code: with the slot holding `null`, which parses,
`loadHistory` leaves `analysisHistory` equal to `null`, not to the empty array,
and the start-up path throws a `TypeError` in `updateHistoryDisplay`; with the
slot holding an array of one record that lacks `risk_level` the history is that
array and the start-up path throws too. -/
theorem startup_throws_on_parseable_corrupt_slot :
    (loadHistory (initialState (some "null") "url")).analysisHistory = .null ∧
    (startup (initialState (some "null") "url")).thrown = some .typeError ∧
    (loadHistory (initialState (some "[\x7b\"score\":85\x7d]") "url")).analysisHistory
      = .arr [.obj [("score", .int 85)]] ∧
    (startup (initialState (some "[\x7b\"score\":85\x7d]") "url")).thrown = some .typeError := by
  decide

/-- What does hold of C7: at start-up, a slot whose text is not JSON gives the
empty history, and the start-up path returns. -/
theorem startup_unparseable_slot (stored inputType : String) (e : JSError)
    (h : JSON.parse stored = .error e) :
    (loadHistory (initialState (some stored) inputType)).analysisHistory = .arr [] ∧
    (startup (initialState (some stored) inputType)).thrown = none := by
  have hl : loadHistory (initialState (some stored) inputType)
      = initialState (some stored) inputType := by
    simp only [loadHistory, initialState, h]
    split <;> rfl
  refine ⟨by rw [hl]; rfl, ?_⟩
  rw [startup, hl]
  rfl

/-- The theorem above at a slot holding the text `garbage`. -/
theorem startup_unparseable_slot_witness :
    JSON.parse "garbage" = .error .syntaxError ∧
    (loadHistory (initialState (some "garbage") "url")).analysisHistory = .arr [] ∧
    (startup (initialState (some "garbage") "url")).thrown = none :=
  ⟨by decide, startup_unparseable_slot "garbage" "url" .syntaxError (by decide)⟩

/-! ## C8 -/

theorem analysisBody_failsBeforePayload (host : Host) (st : AppState) (req : Request)
    (now : String) (outcome : FetchOutcome) (h : failsBeforePayload outcome = true) :
    (analysisBody host st req now outcome).state = st ∧
    ∃ e, (analysisBody host st req now outcome).thrown = some e := by
  cases outcome with
  | rejected => exact ⟨rfl, _, rfl⟩
  | response ok body =>
    cases ok with
    | false =>
      simp only [analysisBody]
      split
      · exact ⟨rfl, _, rfl⟩
      · exact ⟨rfl, _, rfl⟩
    | true =>
      simp only [failsBeforePayload] at h
      simp only [analysisBody]
      split
      · exact ⟨rfl, _, rfl⟩
      · rename_i result hres
        simp [hres] at h

theorem analysisBody_wronglyShaped (host : Host) (st : AppState) (req : Request)
    (now : String) (outcome : FetchOutcome)
    (h : isWronglyShaped host req.inputType req.inputText now outcome = true) :
    ∃ current e, (analysisBody host st req now outcome).state =
        { st with currentAnalysis := current } ∧
      (analysisBody host st req now outcome).thrown = some e := by
  unfold isWronglyShaped at h
  split at h
  · rename_i body
    split at h
    · rename_i result hres
      split at h
      · exact absurd h (by simp)
      · rename_i e he
        refine ⟨analysisRecord result req.inputType req.inputText now, e, ?_⟩
        simp [analysisBody, hres, displayResults, he, Outcome.andThen]
    · exact absurd h (by simp)
  · exact absurd h (by simp)

/-- C8, as the code has it: when `performAnalysis` fails on a transport error, a
non-success status or a body that is not JSON, `currentAnalysis`,
`analysisHistory` and the slot are as before and an error message is shown; when
it fails on a wrongly shaped payload, `analysisHistory` and the slot are as
before and an error message is shown. -/
theorem failed_analysis_stores_nothing (host : Host) (st : AppState)
    (inputType inputText now : String) (outcome : FetchOutcome)
    (h : failsBeforePayload outcome = true ∨
      isWronglyShaped host inputType inputText now outcome = true) :
    (performAnalysis host st inputType inputText now outcome).analysisHistory
      = st.analysisHistory ∧
    (performAnalysis host st inputType inputText now outcome).storage = st.storage ∧
    (∃ n, (performAnalysis host st inputType inputText now outcome).notices
      = st.notices ++ [n]) ∧
    (failsBeforePayload outcome = true →
      (performAnalysis host st inputType inputText now outcome).currentAnalysis
        = st.currentAnalysis) := by
  rw [performAnalysis_eq]
  rcases h with h | h
  · obtain ⟨hs, e, he⟩ :=
      analysisBody_failsBeforePayload host (showLoading st) ⟨inputType, inputText⟩ now outcome h
    simp only [he, hs]
    exact ⟨rfl, rfl, ⟨noticeOf e, rfl⟩, fun _ => rfl⟩
  · obtain ⟨current, e, hs, he⟩ :=
      analysisBody_wronglyShaped host (showLoading st) ⟨inputType, inputText⟩ now outcome h
    simp only [he, hs]
    refine ⟨rfl, rfl, ⟨noticeOf e, rfl⟩, ?_⟩
    intro hf
    exfalso
    unfold isWronglyShaped at h
    unfold failsBeforePayload at hf
    split at h
    · split at h
      · rename_i hres
        simp [hres] at hf
      · exact absurd h (by simp)
    · exact absurd h (by simp)

/-- The theorem above at a response of status 500. -/
theorem failed_analysis_stores_nothing_witness :
    (failsBeforePayload (.response false "\x7b\"error\":\"Server error\"\x7d") = true ∨
      isWronglyShaped Host.strict "url" "http://a.b/" "t"
        (.response false "\x7b\"error\":\"Server error\"\x7d") = true) ∧
    (performAnalysis Host.strict (initialState none "url") "url" "http://a.b/" "t"
        (.response false "\x7b\"error\":\"Server error\"\x7d")).analysisHistory
      = (initialState none "url").analysisHistory :=
  ⟨Or.inl rfl,
   (failed_analysis_stores_nothing Host.strict (initialState none "url") "url"
      "http://a.b/" "t" (.response false "\x7b\"error\":\"Server error\"\x7d") (Or.inl rfl)).1⟩

/-- C8 as stated fails: on a payload with no `risk_level`, `performAnalysis`
ends in failure (an error is shown, nothing is stored) and `currentAnalysis` is
not as before: it holds the record built from the payload. -/
theorem failed_analysis_replaces_current :
    (performAnalysis Host.strict (initialState none "url") "url" "http://a.b/" "t"
        (.response true "\x7b\"score\":85\x7d")).notices = [.engine .typeError] ∧
    (performAnalysis Host.strict (initialState none "url") "url" "http://a.b/" "t"
        (.response true "\x7b\"score\":85\x7d")).analysisHistory = .arr [] ∧
    (initialState none "url").currentAnalysis = .null ∧
    (performAnalysis Host.strict (initialState none "url") "url" "http://a.b/" "t"
        (.response true "\x7b\"score\":85\x7d")).currentAnalysis
      = .obj [("score", .int 85), ("input", .str "http://a.b/"), ("inputType", .str "url"),
          ("timestamp", .str "t")] := by
  decide

/-! ## C9 -/

/-- C9, as the code has it: `startNewAnalysis` empties the form and hides the
results section, and leaves `currentAnalysis`, `analysisHistory` and the slot
unchanged; the record stays current, so `exportReport` produces afterwards what
it produced before. -/
theorem startNewAnalysis_keeps_record (st : AppState) (defaultType now : String) :
    (startNewAnalysis st defaultType).currentAnalysis = st.currentAnalysis ∧
    (startNewAnalysis st defaultType).analysisHistory = st.analysisHistory ∧
    (startNewAnalysis st defaultType).storage = st.storage ∧
    (startNewAnalysis st defaultType).userInput = "" ∧
    (startNewAnalysis st defaultType).resultsHidden = true ∧
    (exportReport (startNewAnalysis st defaultType) now).downloads
      = (exportReport st now).downloads := by
  refine ⟨rfl, rfl, rfl, rfl, rfl, ?_⟩
  unfold exportReport
  have h : (startNewAnalysis st defaultType).currentAnalysis = st.currentAnalysis := rfl
  have hd : (startNewAnalysis st defaultType).downloads = st.downloads := rfl
  rw [h]
  split
  · simp only [hd]
  · exact hd

/-- C9 as stated fails: after an analysis has succeeded, `startNewAnalysis` leaves
`currentAnalysis` holding the record, and `exportReport` still starts a download. -/
theorem reset_does_not_discard_record :
    (startNewAnalysis
        (performAnalysis Host.strict (initialState none "url") "url" "http://a.b/" "t"
          (.response true "\x7b\"score\":85,\"risk_level\":\"HIGH\"\x7d")) "url").currentAnalysis
      = .obj [("score", .int 85), ("risk_level", .str "HIGH"), ("input", .str "http://a.b/"),
          ("inputType", .str "url"), ("timestamp", .str "t")] ∧
    ((exportReport
        (startNewAnalysis
          (performAnalysis Host.strict (initialState none "url") "url" "http://a.b/" "t"
            (.response true "\x7b\"score\":85,\"risk_level\":\"HIGH\"\x7d")) "url")
        "2024-05-01T10:00:00.000Z").downloads.map Download.fileName)
      = ["phishguard_report_2024-05-01.json"] := by
  decide

/-! ## Values: `JSON.parse` after `JSON.stringify(value, null, 2)` -/

theorem skipWs_append_ws (ws cs : List Char) (h : ws.all isWs = true) :
    skipWs (ws ++ cs) = skipWs cs := by
  induction ws with
  | nil => rfl
  | cons c ws ih =>
    simp only [List.all_cons, Bool.and_eq_true] at h
    simp [skipWs, h.1, ih h.2]

theorem indentOf_ws (d : Nat) : (indentOf d).all isWs = true := by
  unfold indentOf
  generalize 2 * d = n
  induction n with
  | zero => rfl
  | succ n ih =>
    rw [List.replicate_succ, List.all_cons, ih]
    rfl

theorem newline_indentOf_ws (d : Nat) : ('\n' :: indentOf d).all isWs = true := by
  rw [List.all_cons, indentOf_ws]
  rfl

theorem parseValue_ws (fuel : Nat) (ws cs : List Char) (h : ws.all isWs = true) :
    parseValue fuel (ws ++ cs) = parseValue fuel cs := by
  cases fuel with
  | zero => rw [parseValue, parseValue]
  | succ fuel => rw [parseValue, parseValue, skipWs_append_ws ws cs h]

theorem parseItems_ws (fuel : Nat) (ws cs : List Char) (h : ws.all isWs = true) :
    parseItems fuel (ws ++ cs) = parseItems fuel cs := by
  cases fuel with
  | zero => rw [parseItems, parseItems]
  | succ fuel => rw [parseItems, parseItems, parseValue_ws fuel ws cs h]

theorem parseMembers_ws (fuel : Nat) (ws cs : List Char) (acc : List (String × JSValue))
    (h : ws.all isWs = true) :
    parseMembers fuel (ws ++ cs) acc = parseMembers fuel cs acc := by
  cases fuel with
  | zero => rw [parseMembers, parseMembers]
  | succ fuel => rw [parseMembers, parseMembers, skipWs_append_ws ws cs h]

theorem parseValue_int_ends (fuel : Nat) (m : Int) (rest : List Char)
    (hr : endsNumber rest = true) :
    parseValue (fuel + 1) (numberToString m 0 ++ rest) = some (.num m 0, rest) := by
  obtain ⟨c, tail, h1, h2, h3⟩ := numberToString_head m
  have hnum := parseNumber_int m rest hr
  rw [h1] at hnum ⊢
  rw [parseValue, List.cons_append, skipWs_startsValue c _ h2]
  have hq : c ≠ '"' ∧ c ≠ '[' ∧ c ≠ '{' ∧ c ≠ 'n' ∧ c ≠ 't' ∧ c ≠ 'f' := by
    rcases h3 with h3 | h3
    · subst h3; decide
    · simp only [isDigit, Bool.and_eq_true, decide_eq_true_eq] at h3
      have hne : ∀ d : Char, c.toNat ≠ d.toNat → c ≠ d := fun d hd he => hd (by rw [he])
      refine ⟨hne _ ?_, hne _ ?_, hne _ ?_, hne _ ?_, hne _ ?_, hne _ ?_⟩ <;>
        simp <;> omega
  simp only [parseLiteral, hq.1, hq.2.1, hq.2.2.1, hq.2.2.2.1, hq.2.2.2.2.1, hq.2.2.2.2.2,
    if_false]
  exact hnum

theorem parseValue_array_ws (fuel : Nat) (c : Char) (rest0 tail rest : List Char)
    (xs : List JSValue) (hs : skipWs rest0 = c :: tail) (hc : c ≠ ']')
    (hI : parseItems fuel rest0 = some (xs, rest)) :
    parseValue (fuel + 1) ('[' :: rest0) = some (.arr xs, rest) := by
  rw [parseValue, skipWs_startsValue '[' _ (by decide)]
  simp only [show ¬ ('[' = '"') from by decide, if_false, if_true, hs, hc, hI]

theorem parseValue_object_ws (fuel : Nat) (rest0 tail rest : List Char)
    (fs : List (String × JSValue)) (hs : skipWs rest0 = '"' :: tail)
    (hM : parseMembers fuel rest0 [] = some (fs, rest)) :
    parseValue (fuel + 1) ('{' :: rest0) = some (.obj fs, rest) := by
  rw [parseValue, skipWs_startsValue '{' _ (by decide)]
  simp only [show ¬ ('{' = '"') from by decide, show ¬ ('{' = '[') from by decide,
    if_false, if_true, hs, show ¬ ('"' = '}') from by decide, hM]

theorem parseItems_last_ws (fuel : Nat) (cs r1 rest : List Char) (v : JSValue)
    (hV : parseValue fuel cs = some (v, r1)) (hs : skipWs r1 = ']' :: rest) :
    parseItems (fuel + 1) cs = some ([v], rest) := by
  rw [parseItems]
  simp only [hV, hs]
  simp

theorem parseMembers_last_ws (fuel : Nat) (k : String) (cs r3 rest : List Char) (v : JSValue)
    (acc : List (String × JSValue))
    (hV : parseValue fuel cs = some (v, r3)) (hs : skipWs r3 = '}' :: rest) :
    parseMembers (fuel + 1) (quoteString k ++ ':' :: cs) acc
      = some (setField acc k v, rest) := by
  rw [parseMembers]
  simp only [quoteString, List.cons_append, List.append_assoc, List.singleton_append,
    skipWs_startsValue '"' _ (by decide), if_true]
  rw [parseString_quoteBody]
  simp [hV, hs, skipWs, isWs]

theorem prettyValue_head (d : Nat) (v : JSValue) (hv : isCanonical v = true) :
    ∃ c tail, prettyValue d v = c :: tail ∧ startsValue c = true := by
  cases v with
  | null => exact ⟨'n', _, rfl, by decide⟩
  | bool b => cases b <;> exact ⟨_, _, rfl, by decide⟩
  | num m e =>
    simp only [isCanonical, beq_iff_eq] at hv
    subst hv
    obtain ⟨c, tail, h1, h2, _⟩ := numberToString_head m
    exact ⟨c, tail, by rw [prettyValue, h1], h2⟩
  | str s => exact ⟨'"', _, rfl, by decide⟩
  | arr xs => cases xs <;> exact ⟨'[', _, rfl, by decide⟩
  | obj fs => cases fs <;> exact ⟨'{', _, rfl, by decide⟩

theorem prettyValue_length_pos (d : Nat) (v : JSValue) (hv : isCanonical v = true) :
    0 < (prettyValue d v).length := by
  obtain ⟨c, tail, h, _⟩ := prettyValue_head d v hv
  rw [h]; simp

theorem prettyItems_head (d : Nat) (x : JSValue) (xs : List JSValue)
    (hx : isCanonical x = true) :
    ∃ c tail, prettyItems d (x :: xs) = c :: tail ∧ startsValue c = true := by
  obtain ⟨c, tail, hc, hsv⟩ := prettyValue_head (d + 1) x hx
  cases xs with
  | nil => exact ⟨c, tail, by simp [prettyItems, hc], hsv⟩
  | cons y ys =>
    exact ⟨c, tail ++ ',' :: '\n' :: (indentOf (d + 1) ++ prettyItems d (y :: ys)),
      by simp [prettyItems, hc], hsv⟩

theorem prettyFields_head (d : Nat) (f : String × JSValue) (fs : List (String × JSValue)) :
    ∃ tail, prettyFields d (f :: fs) = '"' :: tail := by
  obtain ⟨k, v⟩ := f
  cases fs with
  | nil =>
    exact ⟨quoteBody k.data ++ '"' :: ':' :: ' ' :: prettyValue (d + 1) v,
      by simp [prettyFields, quoteString]⟩
  | cons y ys =>
    exact ⟨quoteBody k.data ++ '"' :: ':' :: ' ' ::
        (prettyValue (d + 1) v ++ ',' :: '\n' ::
          (indentOf (d + 1) ++ prettyFields d (y :: ys))),
      by simp [prettyFields, quoteString]⟩

theorem skipWs_closing (d : Nat) (c : Char) (rest : List Char) (hc : isWs c = false) :
    skipWs ('\n' :: (indentOf d ++ c :: rest)) = c :: rest := by
  rw [← List.cons_append, skipWs_append_ws _ _ (newline_indentOf_ws d)]
  simp [skipWs, hc]

theorem parse_pretty_fuel (fuel : Nat) :
    (∀ v d rest, isCanonical v = true → (prettyValue d v).length ≤ fuel →
      endsNumber rest = true →
      parseValue fuel (prettyValue d v ++ rest) = some (v, rest)) ∧
    (∀ x xs d rest, isCanonical x = true → isCanonicalList xs = true →
      (prettyItems d (x :: xs)).length < fuel →
      parseItems fuel (prettyItems d (x :: xs) ++ '\n' :: (indentOf d ++ ']' :: rest))
        = some (x :: xs, rest)) ∧
    (∀ f fs d acc rest, isCanonicalFields (f :: fs) = true →
      (prettyFields d (f :: fs)).length < fuel →
      parseMembers fuel (prettyFields d (f :: fs) ++ '\n' :: (indentOf d ++ '}' :: rest)) acc =
        some ((f :: fs).foldl (fun acc kv => setField acc kv.1 kv.2) acc, rest)) := by
  induction fuel with
  | zero =>
    refine ⟨?_, ?_, ?_⟩
    · intro v d rest hv hlen _
      have := prettyValue_length_pos d v hv
      omega
    · intro x xs d rest _ _ hlen; omega
    · intro f fs d acc rest _ hlen; omega
  | succ fuel ih =>
    obtain ⟨ihV, ihI, ihM⟩ := ih
    refine ⟨?_, ?_, ?_⟩
    · intro v d rest hv hlen hr
      cases v with
      | null => exact parseValue_null fuel rest
      | bool b =>
        cases b
        · exact parseValue_bool fuel false rest
        · exact parseValue_bool fuel true rest
      | num m e =>
        simp only [isCanonical, beq_iff_eq] at hv
        subst hv
        exact parseValue_int_ends fuel m rest hr
      | str s => exact parseValue_str fuel s rest
      | arr xs =>
        cases xs with
        | nil => simp [parseValue, prettyValue, skipWs, isWs]
        | cons x xs =>
          simp only [isCanonical, isCanonicalList, Bool.and_eq_true] at hv
          obtain ⟨c, tail, hc, hsv⟩ := prettyItems_head d x xs hv.1
          have hne : c ≠ ']' := by
            intro h; subst h; exact absurd hsv (by decide)
          have hlen2 : (prettyItems d (x :: xs)).length < fuel := by
            simp only [prettyValue, List.length_cons, List.length_append,
              List.length_singleton] at hlen
            omega
          have hI := ihI x xs d rest hv.1 hv.2 hlen2
          have hstr : prettyValue d (.arr (x :: xs)) ++ rest
              = '[' :: (('\n' :: indentOf (d + 1)) ++
                  (prettyItems d (x :: xs) ++ '\n' :: (indentOf d ++ ']' :: rest))) := by
            simp [prettyValue]
          rw [hstr]
          apply parseValue_array_ws fuel c _
            (tail ++ '\n' :: (indentOf d ++ ']' :: rest)) rest (x :: xs) ?_ hne
          · rw [parseItems_ws _ _ _ (newline_indentOf_ws (d + 1))]
            exact hI
          · rw [skipWs_append_ws _ _ (newline_indentOf_ws (d + 1)), hc, List.cons_append,
              skipWs_startsValue c _ hsv]
      | obj fs =>
        cases fs with
        | nil => simp [parseValue, prettyValue, skipWs, isWs]
        | cons f fs =>
          simp only [isCanonical, Bool.and_eq_true, decide_eq_true_eq] at hv
          obtain ⟨tail, hc⟩ := prettyFields_head d f fs
          have hlen2 : (prettyFields d (f :: fs)).length < fuel := by
            simp only [prettyValue, List.length_cons, List.length_append,
              List.length_singleton] at hlen
            omega
          have hM := ihM f fs d [] rest hv.2 hlen2
          have hstr : prettyValue d (.obj (f :: fs)) ++ rest
              = '{' :: (('\n' :: indentOf (d + 1)) ++
                  (prettyFields d (f :: fs) ++ '\n' :: (indentOf d ++ '}' :: rest))) := by
            simp [prettyValue]
          rw [hstr]
          rw [hv.1] at hM
          apply parseValue_object_ws fuel _
            (tail ++ '\n' :: (indentOf d ++ '}' :: rest)) rest (f :: fs) ?_
          · rw [parseMembers_ws _ _ _ _ (newline_indentOf_ws (d + 1))]
            exact hM
          · rw [skipWs_append_ws _ _ (newline_indentOf_ws (d + 1)), hc, List.cons_append,
              skipWs_startsValue '"' _ (by decide)]
    · intro x xs d rest hx hxs hlen
      cases xs with
      | nil =>
        simp only [prettyItems] at hlen ⊢
        exact parseItems_last_ws fuel _ _ rest x
          (ihV x (d + 1) _ hx (by omega) rfl) (skipWs_closing d ']' rest rfl)
      | cons y ys =>
        simp only [isCanonicalList, Bool.and_eq_true] at hxs
        have hlen' : (prettyValue (d + 1) x).length + 1 + (prettyItems d (y :: ys)).length
            < fuel + 1 := by
          simp only [prettyItems, List.length_append, List.length_cons] at hlen
          omega
        have hstr : prettyItems d (x :: y :: ys) ++ '\n' :: (indentOf d ++ ']' :: rest)
            = prettyValue (d + 1) x ++ ',' :: (('\n' :: indentOf (d + 1)) ++
                (prettyItems d (y :: ys) ++ '\n' :: (indentOf d ++ ']' :: rest))) := by
          simp [prettyItems]
        rw [hstr]
        refine parseItems_more fuel _ _ rest x (y :: ys)
          (ihV x (d + 1) _ hx (by omega) rfl) ?_
        rw [parseItems_ws _ _ _ (newline_indentOf_ws (d + 1))]
        exact ihI y ys d rest hxs.1 hxs.2 (by omega)
    · intro f fs d acc rest hfs hlen
      obtain ⟨k, v⟩ := f
      cases fs with
      | nil =>
        simp only [isCanonicalFields, Bool.and_eq_true] at hfs
        have hlen' : (prettyValue (d + 1) v).length < fuel + 1 := by
          simp only [prettyFields, List.length_append, List.length_cons] at hlen
          omega
        have hstr : prettyFields d [(k, v)] ++ '\n' :: (indentOf d ++ '}' :: rest)
            = quoteString k ++ ':' :: ([' '] ++
                (prettyValue (d + 1) v ++ '\n' :: (indentOf d ++ '}' :: rest))) := by
          simp [prettyFields]
        rw [hstr]
        refine parseMembers_last_ws fuel k _ _ rest v acc ?_ (skipWs_closing d '}' rest rfl)
        rw [parseValue_ws _ [' '] _ rfl]
        exact ihV v (d + 1) _ hfs.1 (by omega) rfl
      | cons g gs =>
        simp only [isCanonicalFields, Bool.and_eq_true] at hfs
        have hg : isCanonicalFields (g :: gs) = true := by
          obtain ⟨kg, vg⟩ := g
          simp only [isCanonicalFields, Bool.and_eq_true]
          exact hfs.2
        have hlen' : (prettyValue (d + 1) v).length + 1 + (prettyFields d (g :: gs)).length
            < fuel + 1 := by
          simp only [prettyFields, List.length_append, List.length_cons] at hlen
          omega
        have hstr : prettyFields d ((k, v) :: g :: gs) ++ '\n' :: (indentOf d ++ '}' :: rest)
            = quoteString k ++ ':' :: ([' '] ++
                (prettyValue (d + 1) v ++ ',' :: (('\n' :: indentOf (d + 1)) ++
                  (prettyFields d (g :: gs) ++ '\n' :: (indentOf d ++ '}' :: rest))))) := by
          simp [prettyFields]
        rw [hstr]
        refine parseMembers_more fuel k _
          (('\n' :: indentOf (d + 1)) ++
            (prettyFields d (g :: gs) ++ '\n' :: (indentOf d ++ '}' :: rest)))
          rest v acc _ ?_ ?_
        · rw [parseValue_ws _ [' '] _ rfl]
          exact ihV v (d + 1) _ hfs.1 (by omega) rfl
        · rw [parseMembers_ws _ _ _ _ (newline_indentOf_ws (d + 1))]
          exact ihM g gs d (setField acc k v) rest hg (by omega)

/-- `JSON.parse` gives back every canonical value that `JSON.stringify(v, null, 2)`
wrote. -/
theorem parse_pretty (v : JSValue) (hv : isCanonical v = true) :
    JSON.parse (String.mk (prettyValue 0 v)) = .ok v := by
  have h := (parse_pretty_fuel (2 * (prettyValue 0 v).length + 2)).1 v 0 [] hv
    (by omega) rfl
  rw [List.append_nil] at h
  simp [JSON.parse, h, skipWs]

/-! ## C10 -/

theorem definedFields_sublist (fs : List (String × Option JSValue)) :
    List.Sublist ((definedFields fs).map Prod.fst) (fs.map Prod.fst) := by
  induction fs with
  | nil => exact List.Sublist.slnil
  | cons f fs ih =>
    obtain ⟨k, o⟩ := f
    cases o with
    | none => exact List.Sublist.cons _ ih
    | some v => exact List.Sublist.cons₂ _ ih

theorem definedFields_canonical (fs : List (String × Option JSValue))
    (h : ∀ k v, (k, some v) ∈ fs → isCanonical v = true) :
    isCanonicalFields (definedFields fs) = true := by
  induction fs with
  | nil => rfl
  | cons f fs ih =>
    obtain ⟨k, o⟩ := f
    have ih2 := ih (fun k v hkv => h k v (List.mem_cons_of_mem _ hkv))
    cases o with
    | none => exact ih2
    | some v =>
      simp only [definedFields, isCanonicalFields, Bool.and_eq_true]
      exact ⟨h k v (List.mem_cons_self _ _), ih2⟩

theorem lookupField_definedFields (fs : List (String × Option JSValue))
    (hnd : (fs.map Prod.fst).Nodup) (k : String) (o : Option JSValue)
    (hmem : (k, o) ∈ fs) : lookupField k (definedFields fs) = o := by
  induction fs with
  | nil => exact absurd hmem (List.not_mem_nil _)
  | cons f fs ih =>
    obtain ⟨k', o'⟩ := f
    simp only [List.map_cons, List.nodup_cons] at hnd
    rcases List.mem_cons.mp hmem with heq | hin
    · simp only [Prod.mk.injEq] at heq
      obtain ⟨hk, ho⟩ := heq
      subst hk ho
      cases o with
      | none =>
        simp only [definedFields]
        apply lookupField_eq_none
        exact fun hm => hnd.1 ((definedFields_sublist fs).subset hm)
      | some v => simp [definedFields, lookupField]
    · have hne : k' ≠ k := by
        intro he
        subst he
        exact hnd.1 (List.mem_map_of_mem Prod.fst hin)
      cases o' with
      | none => exact ih hnd.2 hin
      | some v' =>
        simp only [definedFields, lookupField, hne, if_false]
        exact ih hnd.2 hin

theorem reportFields_keys (cur : JSValue) :
    List.Sublist ((reportFields cur).map Prod.fst) (reportSources.map Prod.fst) :=
  definedFields_sublist _

theorem reportFields_lookup (cur : JSValue) (p : String × String) (hp : p ∈ reportSources) :
    lookupField p.1 (reportFields cur) = property cur p.2 := by
  apply lookupField_definedFields
  · exact (by decide : (reportSources.map Prod.fst).Nodup)
  · simp only [reportSources, List.mem_cons, List.mem_singleton, List.not_mem_nil,
      or_false] at hp
    rcases hp with h | h | h | h | h | h | h <;> subst h <;> simp

theorem reportFields_canonical (cur : JSValue)
    (hcan : ∀ k ∈ recordKeys, ∀ v, property cur k = some v → isCanonical v = true) :
    isCanonical (.obj (reportFields cur)) = true := by
  have hsub := reportFields_keys cur
  have hnd : ((reportFields cur).map Prod.fst).Nodup :=
    hsub.nodup (by decide)
  have hidx : ∀ kv ∈ reportFields cur, arrayIndex? kv.1 = none := by
    intro kv hkv
    have hk : kv.1 ∈ reportSources.map Prod.fst :=
      hsub.subset (List.mem_map_of_mem Prod.fst hkv)
    exact (by decide : ∀ k ∈ reportSources.map Prod.fst, arrayIndex? k = none) _ hk
  have hfold := foldl_setField_fresh (reportFields cur) [] hidx (by simpa using hnd)
  simp only [List.nil_append] at hfold
  simp only [isCanonical, Bool.and_eq_true, decide_eq_true_eq]
  refine ⟨hfold, ?_⟩
  apply definedFields_canonical
  intro k v hkv
  simp only [List.mem_cons, List.mem_singleton, List.not_mem_nil, or_false,
    Prod.mk.injEq] at hkv
  rcases hkv with h | h | h | h | h | h | h <;>
    exact hcan _ (by decide) v h.2.symm

theorem exported_eq (st : AppState) (now : String) :
    exported st now =
      if st.currentAnalysis.truthy then
        [{ href := "data:application/json;charset=utf-8," ++
             encodeURIComponent (reportDocument st.currentAnalysis),
           fileName := "phishguard_report_" ++
             String.mk (now.data.takeWhile (fun c => c != 'T')) ++ ".json" }]
      else [] := by
  unfold exported exportReport
  split <;> simp

/-- C10: what `exportReport` produces is a function of the seven properties of
the current record.  Two states whose current records agree on the seven
properties, and are both set or both not, give the same document and the same
download link, whatever the history, the slot, the form and the rest of the two
states, and the whole download when the date is the same.  With a current record
`exportReport` adds one download, of that document, and changes nothing else;
without one it changes nothing.  The document is JSON: it parses to an object
that has, of the seven report fields and in their order, those whose property
the record has, each holding the value of that property; for a record that has
all seven it parses to exactly the seven fields. -/
theorem export_depends_on_record_only (st1 st2 : AppState) (now1 now2 : String)
    (heq : ∀ k ∈ recordKeys,
      property st1.currentAnalysis k = property st2.currentAnalysis k)
    (ht : st1.currentAnalysis.truthy = st2.currentAnalysis.truthy) :
    reportDocument st1.currentAnalysis = reportDocument st2.currentAnalysis ∧
    (exported st1 now1).map Download.href = (exported st2 now2).map Download.href ∧
    exported st1 now1 = exported st2 now1 ∧
    (st1.currentAnalysis.truthy = true →
      exportReport st1 now1 =
        { st1 with downloads := st1.downloads ++
            [{ href := "data:application/json;charset=utf-8," ++
                 encodeURIComponent (reportDocument st1.currentAnalysis),
               fileName := "phishguard_report_" ++
                 String.mk (now1.data.takeWhile (fun c => c != 'T')) ++ ".json" }] }) ∧
    (st1.currentAnalysis.truthy = false → exportReport st1 now1 = st1) ∧
    ((∀ k ∈ recordKeys, ∀ v, property st1.currentAnalysis k = some v →
        isCanonical v = true) →
      JSON.parse (reportDocument st1.currentAnalysis)
        = .ok (.obj (reportFields st1.currentAnalysis)) ∧
      List.Sublist ((reportFields st1.currentAnalysis).map Prod.fst)
        (reportSources.map Prod.fst) ∧
      ∀ p ∈ reportSources,
        lookupField p.1 (reportFields st1.currentAnalysis)
          = property st1.currentAnalysis p.2) ∧
    (∀ t ty i l s r a : JSValue,
      property st1.currentAnalysis "timestamp" = some t →
      property st1.currentAnalysis "inputType" = some ty →
      property st1.currentAnalysis "input" = some i →
      property st1.currentAnalysis "risk_level" = some l →
      property st1.currentAnalysis "score" = some s →
      property st1.currentAnalysis "triggered_rules" = some r →
      property st1.currentAnalysis "analysis_summary" = some a →
      isCanonical (.arr [t, ty, i, l, s, r, a]) = true →
      JSON.parse (reportDocument st1.currentAnalysis)
        = .ok (.obj [("timestamp", t), ("input_type", ty), ("input", i), ("risk_level", l),
            ("risk_score", s), ("triggered_rules", r), ("analysis_summary", a)])) := by
  have hfields : reportFields st1.currentAnalysis = reportFields st2.currentAnalysis := by
    simp only [reportFields]
    rw [heq "timestamp" (by decide), heq "inputType" (by decide), heq "input" (by decide),
      heq "risk_level" (by decide), heq "score" (by decide),
      heq "triggered_rules" (by decide), heq "analysis_summary" (by decide)]
  have hdoc : reportDocument st1.currentAnalysis = reportDocument st2.currentAnalysis := by
    simp only [reportDocument, hfields]
  have hparse : (∀ k ∈ recordKeys, ∀ v, property st1.currentAnalysis k = some v →
        isCanonical v = true) →
      JSON.parse (reportDocument st1.currentAnalysis)
        = .ok (.obj (reportFields st1.currentAnalysis)) :=
    fun hcan => parse_pretty _ (reportFields_canonical _ hcan)
  refine ⟨hdoc, ?_, ?_, ?_, ?_, ?_, ?_⟩
  · rw [exported_eq, exported_eq, ht, hdoc]
    split <;> rfl
  · rw [exported_eq, exported_eq, ht, hdoc]
  · intro h
    simp only [exportReport, h, if_true]
  · intro h
    simp [exportReport, h]
  · intro hcan
    exact ⟨hparse hcan, reportFields_keys _, reportFields_lookup _⟩
  · intro t ty i l s r a h1 h2 h3 h4 h5 h6 h7 hc
    have hf : reportFields st1.currentAnalysis
        = [("timestamp", t), ("input_type", ty), ("input", i), ("risk_level", l),
            ("risk_score", s), ("triggered_rules", r), ("analysis_summary", a)] := by
      simp only [reportFields, h1, h2, h3, h4, h5, h6, h7, definedFields]
    simp only [isCanonical, isCanonicalList, Bool.and_eq_true] at hc
    rw [← hf]
    apply hparse
    intro k hk v hv
    simp only [recordKeys, List.mem_cons, List.mem_singleton, List.not_mem_nil,
      or_false] at hk
    rcases hk with h | h | h | h | h | h | h <;> subst h
    · rw [h5] at hv; cases hv; exact hc.2.2.2.2.1
    · rw [h4] at hv; cases hv; exact hc.2.2.2.1
    · rw [h7] at hv; cases hv; exact hc.2.2.2.2.2.2.1
    · rw [h6] at hv; cases hv; exact hc.2.2.2.2.2.1
    · rw [h3] at hv; cases hv; exact hc.2.2.1
    · rw [h2] at hv; cases hv; exact hc.2.1
    · rw [h1] at hv; cases hv; exact hc.1

/-- The theorem above at two states that differ in everything but the seven
properties of the current record: the two documents are equal, and the document
parses to the seven fields of the record. -/
theorem export_depends_on_record_only_witness :
    (∀ k ∈ recordKeys,
      property
          { initialState none "url" with
            currentAnalysis := .obj [("score", .int 85), ("risk_level", .str "HIGH"),
              ("analysis_summary", .str "s"), ("triggered_rules", .arr [.str "r"]),
              ("input", .str "http://a.b/"), ("inputType", .str "url"),
              ("timestamp", .str "t")] }.currentAnalysis k
        = property
          { initialState (some "[]") "email" with
            analysisHistory := .arr [.null],
            currentAnalysis := .obj [("timestamp", .str "t"), ("debug", .bool true),
              ("score", .int 85), ("risk_level", .str "HIGH"), ("analysis_summary", .str "s"),
              ("triggered_rules", .arr [.str "r"]), ("input", .str "http://a.b/"),
              ("inputType", .str "url")] }.currentAnalysis k) ∧
    reportDocument
        { initialState none "url" with
          currentAnalysis := .obj [("score", .int 85), ("risk_level", .str "HIGH"),
            ("analysis_summary", .str "s"), ("triggered_rules", .arr [.str "r"]),
            ("input", .str "http://a.b/"), ("inputType", .str "url"),
            ("timestamp", .str "t")] }.currentAnalysis
      = reportDocument
        { initialState (some "[]") "email" with
          analysisHistory := .arr [.null],
          currentAnalysis := .obj [("timestamp", .str "t"), ("debug", .bool true),
            ("score", .int 85), ("risk_level", .str "HIGH"), ("analysis_summary", .str "s"),
            ("triggered_rules", .arr [.str "r"]), ("input", .str "http://a.b/"),
            ("inputType", .str "url")] }.currentAnalysis ∧
    JSON.parse (reportDocument
        { initialState none "url" with
          currentAnalysis := .obj [("score", .int 85), ("risk_level", .str "HIGH"),
            ("analysis_summary", .str "s"), ("triggered_rules", .arr [.str "r"]),
            ("input", .str "http://a.b/"), ("inputType", .str "url"),
            ("timestamp", .str "t")] }.currentAnalysis)
      = .ok (.obj [("timestamp", .str "t"), ("input_type", .str "url"),
          ("input", .str "http://a.b/"), ("risk_level", .str "HIGH"),
          ("risk_score", .int 85), ("triggered_rules", .arr [.str "r"]),
          ("analysis_summary", .str "s")]) :=
  ⟨by decide,
   (export_depends_on_record_only _ _ "2024-05-01T10:00:00.000Z" "2025-01-01T00:00:00.000Z"
      (by decide) (by decide)).1,
   (export_depends_on_record_only
      { initialState none "url" with
        currentAnalysis := .obj [("score", .int 85), ("risk_level", .str "HIGH"),
          ("analysis_summary", .str "s"), ("triggered_rules", .arr [.str "r"]),
          ("input", .str "http://a.b/"), ("inputType", .str "url"),
          ("timestamp", .str "t")] }
      { initialState (some "[]") "email" with
        analysisHistory := .arr [.null],
        currentAnalysis := .obj [("timestamp", .str "t"), ("debug", .bool true),
          ("score", .int 85), ("risk_level", .str "HIGH"), ("analysis_summary", .str "s"),
          ("triggered_rules", .arr [.str "r"]), ("input", .str "http://a.b/"),
          ("inputType", .str "url")] }
      "2024-05-01T10:00:00.000Z" "2025-01-01T00:00:00.000Z"
      (by decide) (by decide)).2.2.2.2.2.2 _ _ _ _ _ _ _ rfl rfl rfl rfl rfl rfl rfl (by decide)⟩

/-! ## The success path and the `finally` block -/

/-- On a success whose payload `displayResults` accepts, `performAnalysis` makes
the record current, shows the results, puts the record at the front of the
history, cut to fifty, and writes that history to the slot. -/
theorem successful_analysis_is_stored (host : Host) (st : AppState)
    (inputType inputText now body : String) (result : JSValue) (items : List JSValue)
    (hparse : JSON.parse body = .ok result)
    (hshape : displayChecks host (analysisRecord result inputType inputText now) = .ok ())
    (hhist : st.analysisHistory = .arr items) :
    (performAnalysis host st inputType inputText now (.response true body)).currentAnalysis
      = analysisRecord result inputType inputText now ∧
    (performAnalysis host st inputType inputText now (.response true body)).analysisHistory
      = .arr ((analysisRecord result inputType inputText now :: items).take 50) ∧
    (performAnalysis host st inputType inputText now (.response true body)).storage
      = some (JSON.stringify
          (.arr ((analysisRecord result inputType inputText now :: items).take 50))) ∧
    (performAnalysis host st inputType inputText now (.response true body)).resultsHidden
      = false := by
  refine ⟨performAnalysis_currentAnalysis host st inputType inputText now body result hparse,
    ?_⟩
  rw [performAnalysis_eq]
  have key : ∀ S : AppState,
      S.analysisHistory
        = .arr ((analysisRecord result inputType inputText now :: items).take 50) →
      S.storage = some (JSON.stringify
        (.arr ((analysisRecord result inputType inputText now :: items).take 50))) →
      S.resultsHidden = false →
      (updateHistoryDisplay S).state.analysisHistory
        = .arr ((analysisRecord result inputType inputText now :: items).take 50) ∧
      (updateHistoryDisplay S).state.storage = some (JSON.stringify
        (.arr ((analysisRecord result inputType inputText now :: items).take 50))) ∧
      (updateHistoryDisplay S).state.resultsHidden = false := by
    intro S h1 h2 h3
    obtain ⟨rows, hrows⟩ := updateHistoryDisplay_frame S
    rw [hrows]
    exact ⟨h1, h2, h3⟩
  have hb :
      (analysisBody host (showLoading st) ⟨inputType, inputText⟩ now
          (.response true body)).state.analysisHistory
        = .arr ((analysisRecord result inputType inputText now :: items).take 50) ∧
      (analysisBody host (showLoading st) ⟨inputType, inputText⟩ now
          (.response true body)).state.storage = some (JSON.stringify
        (.arr ((analysisRecord result inputType inputText now :: items).take 50))) ∧
      (analysisBody host (showLoading st) ⟨inputType, inputText⟩ now
          (.response true body)).state.resultsHidden = false := by
    simp only [analysisBody, hparse, displayResults, hshape, Outcome.andThen]
    rw [saveToHistory_arr _ _ items (by simpa [showLoading, hideResults] using hhist)]
    exact key _ rfl rfl rfl
  split <;> simp only [hideLoading, showError] <;> exact hb

/-- The theorem above at a response of score 85 and level `HIGH`, from the empty
history. -/
theorem successful_analysis_is_stored_witness :
    JSON.parse "\x7b\"score\":85,\"risk_level\":\"HIGH\"\x7d"
      = .ok (.obj [("score", .int 85), ("risk_level", .str "HIGH")]) ∧
    displayChecks Host.strict
      (analysisRecord (.obj [("score", .int 85), ("risk_level", .str "HIGH")])
        "url" "http://a.b/" "t") = .ok () ∧
    (performAnalysis Host.strict (initialState none "url") "url" "http://a.b/" "t"
        (.response true "\x7b\"score\":85,\"risk_level\":\"HIGH\"\x7d")).analysisHistory
      = .arr ((analysisRecord (.obj [("score", .int 85), ("risk_level", .str "HIGH")])
          "url" "http://a.b/" "t" :: []).take 50) :=
  ⟨by decide, by decide,
   (successful_analysis_is_stored Host.strict (initialState none "url") "url" "http://a.b/"
      "t" "\x7b\"score\":85,\"risk_level\":\"HIGH\"\x7d"
      (.obj [("score", .int 85), ("risk_level", .str "HIGH")]) [] (by decide) (by decide)
      rfl).2.1⟩

/-- Whatever the outcome of the request, `performAnalysis` ends with the analyze
button enabled and the loading panel hidden (its `finally` block), with the
requests that were in flight before the call still in flight and no other. -/
theorem performAnalysis_finally (host : Host) (st : AppState)
    (inputType inputText now : String) (outcome : FetchOutcome) :
    (performAnalysis host st inputType inputText now outcome).analyzeBtnDisabled = false ∧
    (performAnalysis host st inputType inputText now outcome).loadingHidden = true ∧
    (performAnalysis host st inputType inputText now outcome).pending = st.pending := by
  rw [performAnalysis_eq]
  obtain ⟨current, hs⟩ :=
    analysisBody_shell host (showLoading st) ⟨inputType, inputText⟩ now outcome
  refine ⟨rfl, rfl, ?_⟩
  split <;> simp only [hideLoading, showError] <;> exact hs.2.2.2.2.2.2.2.1

end PhishGuard
